import Mathlib

/-
  Verification of the templating core of the shed command-line tool.

  The definitions below are a shallow embedding of the Go sources:
    - lib/brackets (template lexer, descriptor parser, hydrator,
      Parameters value type with Replace and ThreeWayMerge),
    - cmd/command/run.go (the run pipeline around the store).

  Strings are modelled as Lean String / List Char; Go byte lengths are
  modelled with String.utf8ByteSize, and Go's byte-lexicographic string
  order coincides with code-point lexicographic order under UTF-8.
  Go's index-based scanning loops are rendered as structural recursions
  over the character list carrying the same state (current mode, the
  pending buffer, the accumulated span content); each equation mirrors
  one branch of the corresponding Go loop.
-/

set_option linter.unusedVariables false

/-- Decidable equality for Except results, used to evaluate the embedded
functions on concrete inputs. -/
instance {ε α : Type} [DecidableEq ε] [DecidableEq α] : DecidableEq (Except ε α)
  | .ok a, .ok b =>
    if h : a = b then .isTrue (h ▸ rfl) else .isFalse (fun he => h (Except.ok.inj he))
  | .error a, .error b =>
    if h : a = b then .isTrue (h ▸ rfl) else .isFalse (fun he => h (Except.error.inj he))
  | .ok _, .error _ => .isFalse (fun he => Except.noConfusion he)
  | .error _, .ok _ => .isFalse (fun he => Except.noConfusion he)

namespace Shed

/-- Character class of Go's unicode.IsSpace (used by strings.TrimSpace):
space, tab, newline, vertical tab, form feed, carriage return, NEL, NBSP and
the Unicode space separators. -/
def isGoSpace (c : Char) : Bool :=
  [' ', '\t', '\n', '\x0B', '\x0C', '\r',
   '\u0085', '\u00A0', '\u1680', '\u2000', '\u2001', '\u2002',
   '\u2003', '\u2004', '\u2005', '\u2006', '\u2007', '\u2008',
   '\u2009', '\u200A', '\u2028', '\u2029', '\u202F', '\u205F',
   '\u3000'].contains c

/-- Character class of the RE2 Perl class backslash-s used by the source's
spaceRegex (tab, newline, form feed, carriage return, space). -/
def isRegexSpace (c : Char) : Bool :=
  ['\t', '\n', '\x0C', '\r', ' '].contains c

/-- Model of Go strings.TrimSpace on a character list. -/
def goTrimSpace (cs : List Char) : List Char :=
  ((cs.dropWhile isGoSpace).reverse.dropWhile isGoSpace).reverse

/-- State-machine form of spaceRegex.ReplaceAllString(s, " "): every maximal
run of regex whitespace becomes a single space. The Boolean records whether
the previous character was part of a whitespace run. -/
def collapseAux : Bool → List Char → List Char
  | _, [] => []
  | prev, c :: rest =>
    if isRegexSpace c then
      if prev then collapseAux true rest else ' ' :: collapseAux true rest
    else c :: collapseAux false rest

/-- Model of spaceRegex.ReplaceAllString(s, " ") from the source. -/
def collapseSpaces (cs : List Char) : List Char :=
  collapseAux false cs

/-- Model of strings.SplitN(s, "|", 2): the part before the first pipe and,
when a pipe is present, everything after it. -/
def splitFirstPipe : List Char → List Char × Option (List Char)
  | [] => ([], none)
  | '|' :: rest => ([], some rest)
  | c :: rest =>
    let p := splitFirstPipe rest
    (c :: p.1, p.2)

/-- Embeds parseName from lib/brackets: the trimmed text before the first
pipe of a span's inner content. -/
def parseName (cs : List Char) : List Char :=
  goTrimSpace (splitFirstPipe cs).1

/-- Embeds cleanString from lib/brackets: trim the head, and when a pipe is
present keep exactly one pipe followed by the trimmed tail. -/
def cleanString (cs : List Char) : List Char :=
  match splitFirstPipe cs with
  | (h, none) => goTrimSpace h
  | (h, some t) => goTrimSpace h ++ '|' :: goTrimSpace t

/-- Embeds the scanning loop of ParseCommand from lib/brackets. The Boolean
is the mode (false: outside a bracket span, accumulating the literal chunk;
true: inside a span, accumulating the raw inner content). Outside content is
flushed through collapseSpaces; on a close the content is flushed through
cleanString. When the input ends inside an unterminated span, the Go loop
resumes its outer scan at the final index, so only the last scanned
character is emitted (through the collapse of the then-current chunk). -/
def pcScan : Bool → List Char → List Char → List Char
  | false, buf, '{' :: '{' :: rest =>
    collapseSpaces buf ++ '{' :: '{' :: pcScan true [] rest
  | false, buf, c :: rest => pcScan false (buf ++ [c]) rest
  | false, buf, [] => collapseSpaces buf
  | true, buf, '}' :: '}' :: rest =>
    cleanString buf ++ '}' :: '}' :: pcScan false [] rest
  | true, buf, c :: rest => pcScan true (buf ++ [c]) rest
  | true, buf, [] =>
    match buf.getLast? with
    | some c => collapseSpaces [c]
    | none => []

/-- Embeds ParseCommand from lib/brackets (the error result of the Go
function is always nil, so it is dropped here): trim the input, then
normalize literal chunks and span contents. -/
def ParseCommand (input : String) : String :=
  ⟨pcScan false [] (goTrimSpace input.data)⟩

/-- Embeds the scanning loop of parseBrackets: collect the cleaned inner
content of every terminated bracket span, in order. An unterminated open
ends the scan with no further spans (the Go loop resumes at the final index
where no further open can start). -/
def lexScan : Bool → List Char → List Char → List (List Char)
  | _, _, [] => []
  | false, b, '{' :: '{' :: rest => lexScan true [] rest
  | false, b, _ :: rest => lexScan false b rest
  | true, buf, '}' :: '}' :: rest => cleanString buf :: lexScan false [] rest
  | true, buf, c :: rest => lexScan true (buf ++ [c]) rest

/-- The cleaned span contents of an input, in lexical order. -/
def spanContents (cs : List Char) : List (List Char) :=
  lexScan false [] cs

/-- Go byte length of a character list (len on a Go string is its UTF-8
byte count). -/
def byteLen (cs : List Char) : Nat :=
  String.utf8ByteSize ⟨cs⟩

/-- One step of parseBrackets' deduplication: a span content with an empty
name is discarded; a repeated name keeps the stored content unless the new
content is strictly longer (in bytes); a new name is appended. The Go code
keeps a map from name to index into results; since retained names are
pairwise distinct and replacement preserves the name at an index, that map
is exactly the search for the first entry with the same parseName. -/
def dedupStep (results : List (List Char)) (content : List Char) : List (List Char) :=
  let name := parseName content
  if name = [] then results
  else
    match results.findIdx? (fun r => parseName r = name) with
    | some idx =>
      match results.get? idx with
      | some old => if byteLen old < byteLen content then results.set idx content else results
      | none => results
    | none => results ++ [content]

/-- Embeds parseBrackets from lib/brackets: scan the spans, then
de-duplicate by name keeping the longer cleaned content. -/
def parseBrackets (s : String) : List (List Char) :=
  (spanContents s.data).foldl dedupStep []

/-- Embeds the Parameter struct of lib/brackets. -/
structure Parameter where
  Name : String
  Description : String
deriving DecidableEq, Repr

/-- Embeds the Secret struct of lib/brackets (run.go names the first field
Key; the semantics are identical). -/
structure BSecret where
  Name : String
  Description : String
deriving DecidableEq, Repr

/-- Embeds the ValuedParameter struct of lib/brackets. -/
structure ValuedParameter where
  Name : String
  Value : String
deriving DecidableEq, Repr

/-- The error kinds raised by lib/brackets; the Boolean records whether the
message names a parameter or a secret. -/
inductive BracketsError where
  | nameEmpty (parameter : Bool)
  | startsWithInvalidChar (parameter : Bool) (name : String)
  | containsInvalidSymbols (parameter : Bool) (name : String)
  | tooLong (parameter : Bool) (name : String)
  | containsSpaces (parameter : Bool) (name : String)
  | missingParameters (names : List String)
  | parsingValueParams
deriving DecidableEq, Repr

/-- The fixed symbol set of lib/brackets (const symbols). -/
def symbolsList : List Char :=
  "!@#$%^&*()-+=[]\x7b\x7d;:\x27\",.<>?/\\|`~".data

/-- The per-parameter validation of checkForInvalidParameters, in source
order: empty name, leading digit, forbidden symbol, byte length over the
character limit of 40, embedded space. -/
def checkOneParam (p : Parameter) (parameter : Bool) : Option BracketsError :=
  if p.Name.data = [] then some (.nameEmpty parameter)
  else
    let firstChar := p.Name.data.headD ' '
    if '0' ≤ firstChar ∧ firstChar ≤ '9' then
      some (.startsWithInvalidChar parameter p.Name)
    else if p.Name.data.any (fun r => symbolsList.contains r) then
      some (.containsInvalidSymbols parameter p.Name)
    else if 40 < p.Name.utf8ByteSize then some (.tooLong parameter p.Name)
    else if p.Name.data.contains ' ' then some (.containsSpaces parameter p.Name)
    else none

/-- Embeds checkForInvalidParameters from lib/brackets: the first failing
check of the first failing parameter aborts; otherwise the list is returned
unchanged. -/
def checkForInvalidParameters (pp : List Parameter) (parameter : Bool) :
    Except BracketsError (List Parameter) :=
  match pp.findSome? (fun p => checkOneParam p parameter) with
  | some e => .error e
  | none => .ok pp

/-- Embeds parseParamOrSecret from lib/brackets: split each retained span
content on the first pipe into name and description, then filter. The
contents come out of parseBrackets already cleaned, so the name part is the
trimmed head. -/
def parseParamOrSecret (input : String) (predicate : Parameter → Bool) :
    List Parameter :=
  let pp := (parseBrackets input).map (fun s =>
    match splitFirstPipe s with
    | (h, none) => Parameter.mk ⟨h⟩ ""
    | (h, some t) => Parameter.mk ⟨h⟩ ⟨t⟩)
  pp.filter predicate

/-- Embeds ParseParameters from lib/brackets. The Go predicate indexes
Name[0], which would panic on an empty name; parseBrackets only retains
spans with a nonempty trimmed head (proved below), so the default branch of
headD is unreachable. -/
def ParseParameters (input : String) : Except BracketsError (List Parameter) :=
  let pp := parseParamOrSecret input (fun p => p.Name.data.headD 'A' ≠ '!')
  checkForInvalidParameters pp true

/-- Embeds ParseSecrets from lib/brackets: keep the spans whose name begins
with the bang sigil, strip the sigil, validate, and convert. -/
def ParseSecrets (input : String) : Except BracketsError (List BSecret) :=
  let pp := parseParamOrSecret input (fun p => p.Name.data.headD 'A' = '!')
  let pp := pp.map (fun p => Parameter.mk (String.mk (p.Name.data.drop 1)) p.Description)
  match checkForInvalidParameters pp false with
  | .error e => .error e
  | .ok pp => .ok (pp.map (fun p => BSecret.mk p.Name p.Description))

/-- Embeds the Brackets struct of lib/brackets. -/
structure Brackets where
  Command : String
  Parameters : List Parameter
  Secrets : List BSecret
deriving DecidableEq, Repr

/-- Embeds Parse from lib/brackets. -/
def Parse (input : String) : Except BracketsError Brackets :=
  let cmd := ParseCommand input
  match ParseParameters input with
  | .error e => .error e
  | .ok p =>
    match ParseSecrets input with
    | .error e => .error e
    | .ok s => .ok (Brackets.mk cmd p s)

/-- Embeds ValuedParameters.Value: the first entry with the given name. -/
def valueLookup : List ValuedParameter → String → Option String
  | [], _ => none
  | p :: rest, n => if p.Name = n then some p.Value else valueLookup rest n

/-- Embeds ValuedParameters.MissingSubset: the parameters whose name has no
value, in order. -/
def MissingSubset (vp : List ValuedParameter) (p : List Parameter) :
    List Parameter :=
  p.filter (fun param => (valueLookup vp param.Name).isNone)

/-- Scanner state of HydrateStringSafe: outside a span the pending text
since the last flush point (the Go index i) is carried; inside a span both
that pending text and the raw inner content scanned so far are carried. -/
inductive HyMode where
  | out (pend : List Char)
  | ins (pend content : List Char)

/-- Embeds the scanning loop of HydrateStringSafe: it produces the format
string (literal runs with a percent-s placeholder per span open) and the
argument list (one entry per closed span: the value, or the empty string
for an empty name, or the span re-rendered with cleaned content). When the
input ends inside an unterminated span the Go code has emitted the pending
text plus a placeholder with no matching argument, and then appends the
whole tail from the last flush point, duplicating the pending text. -/
def hyScan (vp : List ValuedParameter) : HyMode → List Char → List Char × List String
  | .out pend, '{' :: '{' :: rest => hyScan vp (.ins pend []) rest
  | .out pend, c :: rest => hyScan vp (.out (pend ++ [c])) rest
  | .out pend, [] => (pend, [])
  | .ins pend content, '}' :: '}' :: rest =>
    let cc := cleanString content
    let nm := parseName cc
    let arg : String :=
      if nm = [] then ""
      else
        match valueLookup vp ⟨nm⟩ with
        | some v => v
        | none => ⟨'{' :: '{' :: cc ++ '}' :: '}' :: []⟩
    let r := hyScan vp (.out []) rest
    (pend ++ '%' :: 's' :: r.1, arg :: r.2)
  | .ins pend content, c :: rest => hyScan vp (.ins pend (content ++ [c])) rest
  | .ins pend content, [] =>
    (pend ++ '%' :: 's' :: pend ++ '{' :: '{' :: content, [])

/-- Model of the fragment of fmt.Sprintf reachable from HydrateStringSafe:
string arguments formatted through literal text and simple verbs. A
percent-s consumes the next argument, a missing argument renders the
MISSING diagnostic, doubled percents render one percent, other verbs applied
to string arguments render Go's mismatch diagnostics, and leftover arguments
render the EXTRA diagnostic. Flags and widths are not modelled; no theorem
below applies Sprintf to a format using them. -/
def goSprintf : List Char → List String → List Char
  | [], [] => []
  | [], a :: args =>
    "%!(EXTRA ".data ++
      (String.intercalate ", " ((a :: args).map (fun v => "string=" ++ v))).data
      ++ [')']
  | '%' :: 's' :: rest, a :: args => a.data ++ goSprintf rest args
  | '%' :: 's' :: rest, [] => "%!s(MISSING)".data ++ goSprintf rest []
  | '%' :: '%' :: rest, args => '%' :: goSprintf rest args
  | ['%'], args => "%!(NOVERB)".data ++ goSprintf [] args
  | '%' :: c :: rest, a :: args =>
    '%' :: '!' :: c :: "(string=".data ++ a.data ++ ')' :: goSprintf rest args
  | '%' :: c :: rest, [] => '%' :: '!' :: c :: "(MISSING)".data ++ goSprintf rest []
  | c :: rest, args => c :: goSprintf rest args

/-- Embeds HydrateStringSafe from lib/brackets: scan the input into a format
string and arguments, then format. -/
def HydrateStringSafe (s : String) (vp : List ValuedParameter) : String :=
  let r := hyScan vp (.out []) s.data
  ⟨goSprintf r.1 r.2⟩

/-- Embeds HydrateString from lib/brackets (the strict form): hydrate
safely, then fail with the missing parameter names when the values do not
cover every parameter of the input. -/
def HydrateString (input : String) (vp : List ValuedParameter) :
    Except BracketsError String :=
  let out := HydrateStringSafe input vp
  match ParseParameters input with
  | .error e => .error e
  | .ok p =>
    let missing := MissingSubset vp p
    if missing = [] then .ok out
    else .error (.missingParameters (missing.map (fun param => param.Name)))

/-- JSON whitespace accepted by encoding/json. -/
def isJsonWs (c : Char) : Bool :=
  c = ' ' ∨ c = '\t' ∨ c = '\n' ∨ c = '\r'

/-- Decode one escape sequence of a JSON string literal (after the
backslash); the unicode escape consumes four hex digits. -/
def jsonEscape : List Char → Option (Char × List Char)
  | '"' :: rest => some ('"', rest)
  | '\\' :: rest => some ('\\', rest)
  | '/' :: rest => some ('/', rest)
  | 'b' :: rest => some ('\x08', rest)
  | 'f' :: rest => some ('\x0C', rest)
  | 'n' :: rest => some ('\n', rest)
  | 'r' :: rest => some ('\r', rest)
  | 't' :: rest => some ('\t', rest)
  | 'u' :: a :: b :: c :: d :: rest =>
    let hex (x : Char) : Option Nat :=
      if '0' ≤ x ∧ x ≤ '9' then some (x.toNat - '0'.toNat)
      else if 'a' ≤ x ∧ x ≤ 'f' then some (x.toNat - 'a'.toNat + 10)
      else if 'A' ≤ x ∧ x ≤ 'F' then some (x.toNat - 'A'.toNat + 10)
      else none
    match hex a, hex b, hex c, hex d with
    | some ha, some hb, some hc, some hd =>
      let n := ((ha * 16 + hb) * 16 + hc) * 16 + hd
      if h : n < 0xd800 ∨ 0xdfff < n ∧ n < 0x110000 then
        some (Char.ofNatAux n h, rest)
      else none
    | _, _, _, _ => none
  | _ => none

/-- Scan the body of a JSON string literal after the opening quote,
returning the decoded content and the input after the closing quote. Fuel
bounds the recursion; each step consumes at least one character, so any
fuel of at least the input length is enough. -/
def jsonStringBody (fuel : Nat) (cs : List Char) :
    Option (List Char × List Char) :=
  match fuel with
  | 0 => none
  | fuel + 1 =>
    match cs with
    | [] => none
    | '"' :: rest => some ([], rest)
    | '\\' :: rest =>
      match jsonEscape rest with
      | some (c, rest2) =>
        match jsonStringBody fuel rest2 with
        | some (body, after) => some (c :: body, after)
        | none => none
      | none => none
    | c :: rest =>
      if c.toNat < 0x20 then none
      else
        match jsonStringBody fuel rest with
        | some (body, after) => some (c :: body, after)
        | none => none

/-- Insert with overwrite, the Go map assignment on a flat string map. -/
def mapInsert : List (String × String) → String → String → List (String × String)
  | [], k, v => [(k, v)]
  | (k0, v0) :: rest, k, v =>
    if k0 = k then (k0, v) :: rest else (k0, v0) :: mapInsert rest k v

/-- Lookup in a flat string map. -/
def mapLookup : List (String × String) → String → Option String
  | [], _ => none
  | (k0, v0) :: rest, k => if k0 = k then some v0 else mapLookup rest k

/-- Member list of a JSON object after the opening brace and the first key
has been decided to exist; fuel bounds the recursion (the caller passes the
input length, which member parsing always exceeds per step). -/
def jsonMembers (fuel : Nat) (acc : List (String × String)) (cs : List Char) :
    Option (List (String × String) × List Char) :=
  match fuel with
  | 0 => none
  | fuel + 1 =>
    match cs.dropWhile isJsonWs with
    | '"' :: rest =>
      match jsonStringBody fuel rest with
      | none => none
      | some (key, afterKey) =>
        match afterKey.dropWhile isJsonWs with
        | ':' :: afterColon =>
          match afterColon.dropWhile isJsonWs with
          | '"' :: rest2 =>
            match jsonStringBody fuel rest2 with
            | none => none
            | some (value, afterValue) =>
              let acc := mapInsert acc ⟨key⟩ ⟨value⟩
              match afterValue.dropWhile isJsonWs with
              | ',' :: afterComma => jsonMembers fuel acc afterComma
              | '\x7d' :: afterClose => some (acc, afterClose)
              | _ => none
          | _ => none
        | _ => none
    | _ => none

/-- Model of encoding/json Unmarshal of a flat JSON object into a Go
map of string to string: returns none exactly when Go returns a decoding
error (non-object payloads, non-string values, trailing garbage). -/
def goUnmarshalStringMap (s : String) : Option (List (String × String)) :=
  match s.data.dropWhile isJsonWs with
  | '\x7b' :: rest =>
    match rest.dropWhile isJsonWs with
    | '\x7d' :: after =>
      if after.dropWhile isJsonWs = [] then some [] else none
    | _ =>
      match jsonMembers s.data.length [] rest with
      | some (m, after) => if after.dropWhile isJsonWs = [] then some m else none
      | none => none
  | _ => none

/-- Embeds ValuedParametersFromMap: one valued parameter per map entry. The
Go map iteration order is unspecified; the association-list order stands in
for it, and no result below depends on the order (Value looks names up and
map keys are unique). -/
def ValuedParametersFromMap (m : List (String × String)) : List ValuedParameter :=
  m.map (fun kv => ValuedParameter.mk kv.1 kv.2)

/-- Embeds ValuedParametersFromJSON from lib/brackets. -/
def ValuedParametersFromJSON (jsonStr : String) :
    Except BracketsError (List ValuedParameter) :=
  match goUnmarshalStringMap jsonStr with
  | none => .error .parsingValueParams
  | some m => .ok (ValuedParametersFromMap m)

/-- Embeds HydrateStringFromJSON from lib/brackets: an empty payload means
an empty object, a decode failure is ParsingValueParams, and otherwise the
safe hydrator runs. -/
def HydrateStringFromJSON (cmd jsonValueParams : String) :
    Except BracketsError String :=
  let j := if jsonValueParams = "" then "\x7b\x7d" else jsonValueParams
  match ValuedParametersFromJSON j with
  | .error e => .error e
  | .ok vp => .ok (HydrateStringSafe cmd vp)

/-- Go byte-lexicographic string order (UTF-8 preserves code point order,
so comparing code points character by character agrees with Go's byte
comparison). -/
def strLtList : List Char → List Char → Bool
  | [], [] => false
  | [], _ :: _ => true
  | _ :: _, [] => false
  | a :: as, b :: bs =>
    if a.toNat < b.toNat then true
    else if b.toNat < a.toNat then false
    else strLtList as bs

/-- Go string less-than on Lean strings. -/
def strLt (a b : String) : Bool :=
  strLtList a.data b.data

/-- The non-strict order induced by Go string comparison, on Parameter
names. -/
def paramLe (a b : Parameter) : Prop :=
  strLt b.Name a.Name = false

instance : DecidableRel paramLe :=
  fun a b => instDecidableEqBool (strLt b.Name a.Name) false

/-- The same order on ValuedParameter names. -/
def vparamLe (a b : ValuedParameter) : Prop :=
  strLt b.Name a.Name = false

instance : DecidableRel vparamLe :=
  fun a b => instDecidableEqBool (strLt b.Name a.Name) false

/-- The same order on the keys of a flat string map. -/
def keyLe (a b : String × String) : Prop :=
  strLt b.1 a.1 = false

instance : DecidableRel keyLe :=
  fun a b => instDecidableEqBool (strLt b.1 a.1) false

/-- Model of sort.Slice with the comparison by Name used throughout
lib/brackets. Go's sort is unstable; among distinct names the result is
determined, and no property below depends on the order of equal names. -/
def sortByName (p : List Parameter) : List Parameter :=
  List.insertionSort paramLe p

/-- Embeds Parameters.ToMap: the map is built front to back with later
entries overwriting earlier ones, so a lookup finds the last entry with the
name. -/
def toMapLookup : List Parameter → String → Option String
  | [], _ => none
  | q :: rest, n =>
    match toMapLookup rest n with
    | some d => some d
    | none => if q.Name = n then some q.Description else none

/-- Embeds Parameters.Names: the original order. -/
def namesOf (p : List Parameter) : List String :=
  p.map (fun q => q.Name)

/-- Embeds Parameters.Description, with the error collapsed to an Option
(the merge ignores the error and defaults to the empty string). -/
def descriptionOf (p : List Parameter) (n : String) : Option String :=
  toMapLookup p n

/-- The search loop of Parameters.Replace: overwrite the description of the
first entry carrying the name, reporting whether one was found. -/
def replaceLoop : List Parameter → String → String → Option (List Parameter)
  | [], _, _ => none
  | q :: rest, name, description =>
    if q.Name = name then some (Parameter.mk q.Name description :: rest)
    else (replaceLoop rest name description).map (fun r => q :: r)

/-- Embeds Parameters.Replace: overwrite the description of the first entry
with the name in place, or append a new entry and re-sort by name. -/
def Replace (p : List Parameter) (name description : String) : List Parameter :=
  match replaceLoop p name description with
  | some updated => updated
  | none => sortByName (p ++ [Parameter.mk name description])

/-- One iteration of the ThreeWayMerge loop for the given name, against the
fixed maps of the before and updated sides. -/
def threeWayStep (beforeP updatedP : List Parameter) (acc : List Parameter)
    (name : String) : List Parameter :=
  let priorityDesc := (descriptionOf acc name).getD ""
  match toMapLookup beforeP name with
  | none =>
    match toMapLookup updatedP name with
    | some u =>
      if u.utf8ByteSize > priorityDesc.utf8ByteSize then Replace acc name u else acc
    | none => acc
  | some b =>
    let priorityChanged := priorityDesc ≠ b
    match toMapLookup updatedP name with
    | some u =>
      let updatedChanged := u ≠ b
      if priorityChanged ∧ updatedChanged then
        if u.utf8ByteSize > priorityDesc.utf8ByteSize then Replace acc name u else acc
      else if updatedChanged then Replace acc name u
      else acc
    | none => acc

/-- Embeds Parameters.ThreeWayMerge: iterate over the receiver's names
(computed once, before any mutation) and resolve each against the before
and updated maps; nil operands on the Go side are the empty list here. -/
def ThreeWayMerge (p beforeP updatedP : List Parameter) : List Parameter :=
  (namesOf p).foldl (threeWayStep beforeP updatedP) p

/-- Go JSON string quoting for the fragment produced here (standard
escapes; the HTML escaping of angle brackets and ampersands that
encoding/json applies by default is also modelled). -/
def jsonQuoteChar (c : Char) : List Char :=
  if c = '"' then ['\\', '"']
  else if c = '\\' then ['\\', '\\']
  else if c = '\n' then ['\\', 'n']
  else if c = '\r' then ['\\', 'r']
  else if c = '\t' then ['\\', 't']
  else if c = '<' then "\\u003c".data
  else if c = '>' then "\\u003e".data
  else if c = '&' then "\\u0026".data
  else if c.toNat < 0x20 then
    let d (n : Nat) : Char := if n < 10 then Char.ofNat ('0'.toNat + n) else Char.ofNat ('a'.toNat + n - 10)
    ['\\', 'u', '0', '0', d (c.toNat / 16), d (c.toNat % 16)]
  else [c]

/-- Render a JSON string literal. -/
def jsonQuote (s : String) : List Char :=
  '"' :: s.data.flatMap jsonQuoteChar ++ ['"']

/-- Model of json.Marshal on a Go map of string to string: keys are sorted
byte-lexicographically and the object rendered with no spaces. -/
def goMarshalStringMap (m : List (String × String)) : String :=
  let sorted := List.insertionSort keyLe m
  let inner := sorted.map (fun kv => jsonQuote kv.1 ++ ':' :: jsonQuote kv.2)
  String.mk ('\x7b' :: (inner.intersperse [',']).flatten ++ ['\x7d'])

/-- Render one Parameter as json.Marshal does with the omitempty tags of
the source struct. -/
def marshalParameter (p : Parameter) : List Char :=
  if p.Name = "" then
    if p.Description = "" then "\x7b\x7d".data
    else '\x7b' :: "\"description\":".data ++ jsonQuote p.Description ++ ['\x7d']
  else
    if p.Description = "" then '\x7b' :: "\"name\":".data ++ jsonQuote p.Name ++ ['\x7d']
    else
      '\x7b' :: "\"name\":".data ++ jsonQuote p.Name ++ ',' :: "\"description\":".data ++
        jsonQuote p.Description ++ ['\x7d']

/-- Render one ValuedParameter as json.Marshal does with its omitempty
tags. -/
def marshalValuedParameter (p : ValuedParameter) : List Char :=
  if p.Name = "" then
    if p.Value = "" then "\x7b\x7d".data
    else '\x7b' :: "\"value\":".data ++ jsonQuote p.Value ++ ['\x7d']
  else
    if p.Value = "" then '\x7b' :: "\"name\":".data ++ jsonQuote p.Name ++ ['\x7d']
    else
      '\x7b' :: "\"name\":".data ++ jsonQuote p.Name ++ ',' :: "\"value\":".data ++
        jsonQuote p.Value ++ ['\x7d']

/-- Embeds Parameters.MarshalJSON in state-passing form. The Go method
copies the receiver slice into a fresh array, sorts the copy, and marshals
it; the receiver's backing array is never written. The second component is
the receiver as observable after the call. -/
def parametersMarshalJSON (p : List Parameter) : String × List Parameter :=
  let sorted := p
  let sorted := List.insertionSort paramLe sorted
  (String.mk ('[' :: ((sorted.map marshalParameter).intersperse [',']).flatten ++ [']']), p)

/-- Embeds ValuedParameters.MarshalJSON in state-passing form, exactly as
for Parameters. -/
def valuedParametersMarshalJSON (vp : List ValuedParameter) :
    String × List ValuedParameter :=
  let sorted := vp
  let sorted := List.insertionSort vparamLe sorted
  (String.mk ('[' :: ((sorted.map marshalValuedParameter).intersperse [',']).flatten ++ [']']), vp)

/-- A row of the secrets table as the run pipeline sees it. -/
structure StoredSecret where
  Key : String
  Value : String
deriving DecidableEq, Repr

/-- Lookup of GetSecretByKey against the table rows. -/
def storeLookup : List StoredSecret → String → Option String
  | [], _ => none
  | s :: rest, k => if s.Key = k then some s.Value else storeLookup rest k

/-- The error kinds surfaced by the run pipeline before execution. -/
inductive RunError where
  | invalidJSONFormat
  | parseCommandFailed (e : BracketsError)
  | parseParamsFailed
  | secretNotFound (key : String)
  | hydrateFailed (e : BracketsError)
deriving DecidableEq, Repr

/-- Embeds the secrets loop of run.go: each parsed secret is fetched from
the store (a miss aborts) and written into the parameter map under its
bang-prefixed key, after the caller-supplied entries are already in the
map. -/
def resolveSecrets (secrets : List BSecret) (store : List StoredSecret)
    (m : List (String × String)) : Except String (List (String × String)) :=
  match secrets with
  | [] => .ok m
  | s :: rest =>
    match storeLookup store s.Name with
    | none => .error s.Name
    | some v => resolveSecrets rest store (mapInsert m ("!" ++ s.Name) v)

/-- Embeds the body of run.go's RunE after the command row is fetched: the
caller JSON is validated and decoded, the template is parsed, the secrets
are resolved into the map, the map is marshalled back to JSON, and the
template is hydrated through HydrateStringFromJSON. The returned string is
what would be handed to execute.Run; every error path returns before any
subprocess is spawned. -/
def runCmdPipeline (command : String) (jsonValueParams : String)
    (store : List StoredSecret) : Except RunError String :=
  if (goUnmarshalStringMap jsonValueParams).isNone then .error .invalidJSONFormat
  else
    match Parse command with
    | .error e => .error (.parseCommandFailed e)
    | .ok parsed =>
      match goUnmarshalStringMap jsonValueParams with
      | none => .error .parseParamsFailed
      | some paramMap =>
        match resolveSecrets parsed.Secrets store paramMap with
        | .error k => .error (.secretNotFound k)
        | .ok m =>
          match HydrateStringFromJSON command (goMarshalStringMap m) with
          | .error e => .error (.hydrateFailed e)
          | .ok hydrated => .ok hydrated

/-
  Order lemmas for the Go string comparison.
-/

theorem strLtList_irrefl (a : List Char) : strLtList a a = false := by
  induction a with
  | nil => rfl
  | cons c cs ih => simp [strLtList, ih]

theorem strLtList_asymm :
    ∀ a b : List Char, strLtList a b = true → strLtList b a = false := by
  intro a
  induction a with
  | nil =>
    intro b h
    cases b with
    | nil => simpa [strLtList] using h
    | cons y ys => simp [strLtList]
  | cons x xs ih =>
    intro b h
    cases b with
    | nil => simp [strLtList] at h
    | cons y ys =>
      by_cases hxy : x.toNat < y.toNat
      · have hyx : ¬ y.toNat < x.toNat := lt_asymm hxy
        simp [strLtList, hxy, hyx]
      · by_cases hyx : y.toNat < x.toNat
        · simp [strLtList, hxy, hyx] at h
        · have := ih ys (by simpa [strLtList, hxy, hyx] using h)
          simp [strLtList, hxy, hyx, this]

theorem strLtList_trans :
    ∀ a b c : List Char, strLtList a b = true → strLtList b c = true →
      strLtList a c = true := by
  intro a
  induction a with
  | nil =>
    intro b c hab hbc
    cases b with
    | nil => simpa [strLtList] using hab
    | cons y ys =>
      cases c with
      | nil => simpa [strLtList] using hbc
      | cons z zs => simp [strLtList]
  | cons x xs ih =>
    intro b c hab hbc
    cases b with
    | nil => simpa [strLtList] using hab
    | cons y ys =>
      cases c with
      | nil => simpa [strLtList] using hbc
      | cons z zs =>
        rcases lt_trichotomy x.toNat y.toNat with hxy | hxy | hxy
        · rcases lt_trichotomy y.toNat z.toNat with hyz | hyz | hyz
          · have : x.toNat < z.toNat := lt_trans hxy hyz
            simp [strLtList, this]
          · have : x.toNat < z.toNat := hyz ▸ hxy
            simp [strLtList, this]
          · simp [strLtList, not_lt_of_gt hyz, hyz] at hbc
        · rcases lt_trichotomy y.toNat z.toNat with hyz | hyz | hyz
          · have : x.toNat < z.toNat := hxy ▸ hyz
            simp [strLtList, this]
          · have hxz : x.toNat = z.toNat := hxy.trans hyz
            have hab' : strLtList xs ys = true := by
              simpa [strLtList, lt_irrefl, hxy] using hab
            have hbc' : strLtList ys zs = true := by
              simpa [strLtList, lt_irrefl, hyz] using hbc
            simp [strLtList, hxz, lt_irrefl, ih ys zs hab' hbc']
          · simp [strLtList, not_lt_of_gt hyz, hyz] at hbc
        · simp [strLtList, not_lt_of_gt hxy, hxy] at hab

theorem strLtList_connex :
    ∀ a b : List Char, strLtList a b = false → strLtList b a = false → a = b := by
  intro a
  induction a with
  | nil =>
    intro b hab hba
    cases b with
    | nil => rfl
    | cons y ys => simp [strLtList] at hab
  | cons x xs ih =>
    intro b hab hba
    cases b with
    | nil => simp [strLtList] at hba
    | cons y ys =>
      rcases lt_trichotomy x.toNat y.toNat with hxy | hxy | hxy
      · simp [strLtList, hxy] at hab
      · have hx : x = y := Char.ext (UInt32.ext hxy)
        subst hx
        have hab' : strLtList xs ys = false := by
          simpa [strLtList, lt_irrefl] using hab
        have hba' : strLtList ys xs = false := by
          simpa [strLtList, lt_irrefl] using hba
        rw [ih ys hab' hba']
      · simp [strLtList, hxy] at hba

instance : IsTotal Parameter paramLe where
  total a b := by
    unfold paramLe
    by_cases h : strLt b.Name a.Name = true
    · exact Or.inr (strLtList_asymm _ _ h)
    · exact Or.inl (Bool.eq_false_iff.mpr h)

instance : IsTrans Parameter paramLe where
  trans a b c hab hbc := by
    unfold paramLe at *
    by_contra hac
    have hac' : strLtList c.Name.data a.Name.data = true :=
      Bool.not_eq_false _ |>.mp hac
    by_cases hca : strLtList a.Name.data b.Name.data = true
    · have : strLtList c.Name.data b.Name.data = true :=
        strLtList_trans _ _ _ hac' hca
      simp [strLt] at hbc
      rw [hbc] at this
      exact Bool.false_ne_true this
    · have hab' : strLtList b.Name.data a.Name.data = false := by
        simpa [strLt] using hab
      have heq : a.Name.data = b.Name.data :=
        strLtList_connex _ _ (Bool.eq_false_iff.mpr hca) hab'
      rw [heq] at hac'
      simp [strLt] at hbc
      rw [hbc] at hac'
      exact Bool.false_ne_true hac'

/-- Go sort.Slice by name produces a list sorted by name. -/
theorem sorted_sortByName (p : List Parameter) :
    List.Sorted paramLe (sortByName p) :=
  List.sorted_insertionSort paramLe p

/-
  Lemmas about Replace and the name projection.
-/

/-- The overwrite path of Replace preserves the name sequence. -/
theorem replaceLoop_namesOf {p : List Parameter} {n d : String}
    {p' : List Parameter} (h : replaceLoop p n d = some p') :
    namesOf p' = namesOf p := by
  induction p generalizing p' with
  | nil => simp [replaceLoop] at h
  | cons q rest ih =>
    by_cases hq : q.Name = n
    · simp [replaceLoop, hq] at h
      subst h
      simp [namesOf, hq]
    · simp [replaceLoop, hq] at h
      obtain ⟨r, hr, hp'⟩ := h
      subst hp'
      have := ih hr
      simp only [namesOf, List.map_cons] at this ⊢
      rw [this]

/-- Sortedness by name only depends on the name sequence. -/
theorem sorted_iff_names (p : List Parameter) :
    List.Sorted paramLe p ↔
      List.Pairwise (fun a b : String => strLt b a = false) (namesOf p) := by
  unfold namesOf List.Sorted
  rw [List.pairwise_map]
  rfl

/-- Claim C7 (counterexample): Replace on an unsorted receiver that already
contains the name overwrites in place and does not sort, so the result is
not sorted ascending by name, contradicting the claim's sortedness after
every Replace. -/
theorem replace_unsorted_counterexample :
    ¬ List.Sorted paramLe
      (Replace [Parameter.mk "b" "x", Parameter.mk "a" "y"] "b" "z") := by
  decide

/-- Claim C7 (amended): on a receiver already sorted ascending by name,
Replace preserves sortedness: the overwrite path keeps the name sequence
unchanged and the append path re-sorts. -/
theorem replace_sorted (p : List Parameter) (n d : String)
    (hp : List.Sorted paramLe p) :
    List.Sorted paramLe (Replace p n d) := by
  unfold Replace
  cases h : replaceLoop p n d with
  | none => exact sorted_sortByName _
  | some p' =>
    rw [sorted_iff_names] at hp ⊢
    rw [replaceLoop_namesOf h]
    exact hp

/-- Witness for the amended claim C7 at a concrete sorted receiver. -/
theorem replace_sorted_witness :
    List.Sorted paramLe
      (Replace [Parameter.mk "a" "1", Parameter.mk "b" "2"] "b" "zz") :=
  replace_sorted _ "b" "zz" (by decide)

/-- Claim C10: serializing Parameters or ValuedParameters leaves the
receiver unchanged; the sort happens on a copy, and the state-passing
embeddings return the receiver exactly as it was. -/
theorem marshalJSON_preserves_receiver (p : List Parameter)
    (vp : List ValuedParameter) :
    (parametersMarshalJSON p).2 = p ∧ (valuedParametersMarshalJSON vp).2 = vp :=
  ⟨rfl, rfl⟩

/-
  Trimming lemmas.
-/

theorem head?_dropWhile_not {p : Char → Bool} :
    ∀ {l : List Char} {c : Char}, (l.dropWhile p).head? = some c → p c = false := by
  intro l
  induction l with
  | nil => intro c h; simp [List.dropWhile] at h
  | cons x xs ih =>
    intro c h
    by_cases hx : p x
    · rw [List.dropWhile_cons_of_pos hx] at h
      exact ih h
    · rw [List.dropWhile_cons_of_neg hx] at h
      simp at h
      subst h
      exact Bool.eq_false_iff.mpr hx

theorem dropWhile_eq_self_of_head {p : Char → Bool} {l : List Char}
    (h : ∀ c, l.head? = some c → p c = false) : l.dropWhile p = l := by
  cases l with
  | nil => rfl
  | cons x xs =>
    have := h x rfl
    rw [List.dropWhile_cons_of_neg (by simp [this])]

theorem getLast?_dropWhile {p : Char → Bool} :
    ∀ {l : List Char}, l.dropWhile p ≠ [] →
      (l.dropWhile p).getLast? = l.getLast? := by
  intro l
  induction l with
  | nil => intro h; simp [List.dropWhile] at h
  | cons x xs ih =>
    intro h
    by_cases hx : p x
    · rw [List.dropWhile_cons_of_pos hx] at h ⊢
      rw [ih h]
      cases hxs : xs with
      | nil =>
        rw [hxs] at h
        simp [List.dropWhile] at h
      | cons y ys => simp
    · rw [List.dropWhile_cons_of_neg hx]

/-- The head of a trimmed list is not whitespace. -/
theorem goTrimSpace_head {l : List Char} {c : Char}
    (h : (goTrimSpace l).head? = some c) : isGoSpace c = false := by
  unfold goTrimSpace at h
  rw [List.head?_reverse] at h
  have hne : (l.dropWhile isGoSpace).reverse.dropWhile isGoSpace ≠ [] := by
    intro hnil
    rw [hnil] at h
    simp at h
  rw [getLast?_dropWhile hne, List.getLast?_reverse] at h
  exact head?_dropWhile_not h

/-- The last element of a trimmed list is not whitespace. -/
theorem goTrimSpace_last {l : List Char} {c : Char}
    (h : (goTrimSpace l).getLast? = some c) : isGoSpace c = false := by
  unfold goTrimSpace at h
  rw [List.getLast?_reverse] at h
  exact head?_dropWhile_not h

/-- Trimming a list whose ends are not whitespace is the identity. -/
theorem goTrimSpace_noop {l : List Char}
    (h1 : ∀ c, l.head? = some c → isGoSpace c = false)
    (h2 : ∀ c, l.getLast? = some c → isGoSpace c = false) :
    goTrimSpace l = l := by
  unfold goTrimSpace
  rw [dropWhile_eq_self_of_head h1]
  rw [dropWhile_eq_self_of_head (by
    intro c hc
    rw [List.head?_reverse] at hc
    exact h2 c hc)]
  exact List.reverse_reverse l

/-- Go TrimSpace is idempotent. -/
theorem goTrimSpace_idem (l : List Char) :
    goTrimSpace (goTrimSpace l) = goTrimSpace l :=
  goTrimSpace_noop (fun _ h => goTrimSpace_head h) (fun _ h => goTrimSpace_last h)


/-
  Step equations for the scanners, discharging the overlapping-pattern
  fallthroughs once and for all.
-/

theorem lexScan_nil (m : Bool) (b : List Char) : lexScan m b [] = [] := by
  cases m <;> rfl

theorem lexScan_open (b r : List Char) :
    lexScan false b ('{' :: '{' :: r) = lexScan true [] r := rfl

theorem lexScan_close (b r : List Char) :
    lexScan true b ('}' :: '}' :: r) = cleanString b :: lexScan false [] r := rfl

theorem lexScan_false_cons (b : List Char) (c : Char) (rest : List Char)
    (h : c = '{' → rest.head? ≠ some '{') :
    lexScan false b (c :: rest) = lexScan false b rest := by
  by_cases hc : c = '{'
  · subst hc
    cases rest with
    | nil => rfl
    | cons y ys =>
      have hy : y ≠ '{' := by
        intro hy
        exact (h rfl) (by simp [hy])
      simp [lexScan, hy]
  · cases rest with
    | nil => simp [lexScan, hc]
    | cons y ys => simp [lexScan, hc]

theorem lexScan_true_cons (b : List Char) (c : Char) (rest : List Char)
    (h : c = '}' → rest.head? ≠ some '}') :
    lexScan true b (c :: rest) = lexScan true (b ++ [c]) rest := by
  by_cases hc : c = '}'
  · subst hc
    cases rest with
    | nil => rfl
    | cons y ys =>
      have hy : y ≠ '}' := by
        intro hy
        exact (h rfl) (by simp [hy])
      simp [lexScan, hy]
  · cases rest with
    | nil => simp [lexScan, hc]
    | cons y ys => simp [lexScan, hc]

theorem pcScan_false_nil (b : List Char) : pcScan false b [] = collapseSpaces b := rfl

theorem pcScan_true_nil (b : List Char) :
    pcScan true b [] = (match b.getLast? with
      | some c => collapseSpaces [c]
      | none => []) := rfl

theorem pcScan_open (b r : List Char) :
    pcScan false b ('{' :: '{' :: r) =
      collapseSpaces b ++ '{' :: '{' :: pcScan true [] r := rfl

theorem pcScan_close (b r : List Char) :
    pcScan true b ('}' :: '}' :: r) =
      cleanString b ++ '}' :: '}' :: pcScan false [] r := rfl

theorem pcScan_false_cons (b : List Char) (c : Char) (rest : List Char)
    (h : c = '{' → rest.head? ≠ some '{') :
    pcScan false b (c :: rest) = pcScan false (b ++ [c]) rest := by
  by_cases hc : c = '{'
  · subst hc
    cases rest with
    | nil => rfl
    | cons y ys =>
      have hy : y ≠ '{' := by
        intro hy
        exact (h rfl) (by simp [hy])
      simp [pcScan, hy]
  · cases rest with
    | nil => simp [pcScan, hc]
    | cons y ys => simp [pcScan, hc]

theorem pcScan_true_cons (b : List Char) (c : Char) (rest : List Char)
    (h : c = '}' → rest.head? ≠ some '}') :
    pcScan true b (c :: rest) = pcScan true (b ++ [c]) rest := by
  by_cases hc : c = '}'
  · subst hc
    cases rest with
    | nil => rfl
    | cons y ys =>
      have hy : y ≠ '}' := by
        intro hy
        exact (h rfl) (by simp [hy])
      simp [pcScan, hy]
  · cases rest with
    | nil => simp [pcScan, hc]
    | cons y ys => simp [pcScan, hc]

theorem hyScan_out_nil (vp : List ValuedParameter) (pend : List Char) :
    hyScan vp (.out pend) [] = (pend, []) := rfl

theorem hyScan_ins_nil (vp : List ValuedParameter) (pend content : List Char) :
    hyScan vp (.ins pend content) [] =
      (pend ++ '%' :: 's' :: pend ++ '{' :: '{' :: content, []) := rfl

theorem hyScan_open (vp : List ValuedParameter) (pend r : List Char) :
    hyScan vp (.out pend) ('{' :: '{' :: r) = hyScan vp (.ins pend []) r := rfl

theorem hyScan_close (vp : List ValuedParameter) (pend content r : List Char) :
    hyScan vp (.ins pend content) ('}' :: '}' :: r) =
      (pend ++ '%' :: 's' :: (hyScan vp (.out []) r).1,
        (if parseName (cleanString content) = [] then ""
         else
           match valueLookup vp ⟨parseName (cleanString content)⟩ with
           | some v => v
           | none => (⟨'{' :: '{' :: cleanString content ++ '}' :: '}' :: []⟩ : String)) ::
          (hyScan vp (.out []) r).2) := rfl

theorem hyScan_out_cons (vp : List ValuedParameter) (pend : List Char) (c : Char)
    (rest : List Char) (h : c = '{' → rest.head? ≠ some '{') :
    hyScan vp (.out pend) (c :: rest) = hyScan vp (.out (pend ++ [c])) rest := by
  by_cases hc : c = '{'
  · subst hc
    cases rest with
    | nil => rfl
    | cons y ys =>
      have hy : y ≠ '{' := by
        intro hy
        exact (h rfl) (by simp [hy])
      simp [hyScan, hy]
  · cases rest with
    | nil => simp [hyScan, hc]
    | cons y ys => simp [hyScan, hc]

theorem hyScan_ins_cons (vp : List ValuedParameter) (pend content : List Char)
    (c : Char) (rest : List Char) (h : c = '}' → rest.head? ≠ some '}') :
    hyScan vp (.ins pend content) (c :: rest) =
      hyScan vp (.ins pend (content ++ [c])) rest := by
  by_cases hc : c = '}'
  · subst hc
    cases rest with
    | nil => rfl
    | cons y ys =>
      have hy : y ≠ '}' := by
        intro hy
        exact (h rfl) (by simp [hy])
      simp [hyScan, hy]
  · cases rest with
    | nil => simp [hyScan, hc]
    | cons y ys => simp [hyScan, hc]

/-
  Shape lemmas for cleaned span contents.
-/

/-- The part before the first pipe contains no pipe. -/
theorem splitFirstPipe_no_pipe : ∀ l : List Char, '|' ∉ (splitFirstPipe l).1 := by
  intro l
  induction l with
  | nil => simp [splitFirstPipe]
  | cons c rest ih =>
    by_cases hc : c = '|'
    · subst hc; simp [splitFirstPipe]
    · simp [splitFirstPipe, hc]
      exact ⟨fun he => hc he.symm, ih⟩

/-- Membership in a trimmed list implies membership in the original. -/
theorem mem_of_mem_goTrimSpace {c : Char} {l : List Char}
    (h : c ∈ goTrimSpace l) : c ∈ l := by
  unfold goTrimSpace at h
  rw [List.mem_reverse] at h
  have h2 := (List.dropWhile_sublist _).subset h
  rw [List.mem_reverse] at h2
  exact (List.dropWhile_sublist _).subset h2

/-- Splitting a pipe-free list finds no pipe. -/
theorem splitFirstPipe_of_no_pipe :
    ∀ {a : List Char}, '|' ∉ a → splitFirstPipe a = (a, none) := by
  intro a
  induction a with
  | nil => intro _; rfl
  | cons c rest ih =>
    intro h
    have hc : c ≠ '|' := fun hc => h (by simp [hc])
    have hr : '|' ∉ rest := fun hr => h (List.mem_cons_of_mem c hr)
    simp [splitFirstPipe, hc, ih hr]

/-- Splitting a concatenation at the explicit pipe. -/
theorem splitFirstPipe_append_pipe {a : List Char} (t : List Char) (h : '|' ∉ a) :
    splitFirstPipe (a ++ '|' :: t) = (a, some t) := by
  induction a with
  | nil => rfl
  | cons c rest ih =>
    have hc : c ≠ '|' := fun hc => h (by simp [hc])
    have hr : '|' ∉ rest := fun hr => h (List.mem_cons_of_mem c hr)
    simp [splitFirstPipe, hc, ih hr]

/-- The head part of any split is pipe-free after trimming. -/
theorem no_pipe_goTrim_fst (r : List Char) :
    '|' ∉ goTrimSpace (splitFirstPipe r).1 := by
  intro hm
  exact splitFirstPipe_no_pipe r (mem_of_mem_goTrimSpace hm)

/-- Splitting a cleaned content recovers its trimmed head. -/
theorem splitFirstPipe_cleanString (r : List Char) :
    (splitFirstPipe (cleanString r)).1 = parseName r := by
  unfold cleanString parseName
  cases hs : splitFirstPipe r with
  | mk h t =>
    have hnp : '|' ∉ goTrimSpace h := by
      have := no_pipe_goTrim_fst r
      rw [hs] at this
      exact this
    cases t with
    | none => rw [splitFirstPipe_of_no_pipe hnp]
    | some tl => rw [splitFirstPipe_append_pipe (goTrimSpace tl) hnp]

/-- The name of a cleaned content is the name of the raw content. -/
theorem parseName_cleanString (r : List Char) :
    parseName (cleanString r) = parseName r := by
  unfold parseName
  rw [splitFirstPipe_cleanString]
  unfold parseName
  exact goTrimSpace_idem _

/-- Every retained span content of the lexer is a cleaned content. -/
theorem lexScan_cleanForm :
    ∀ (n : Nat) (cs : List Char), cs.length ≤ n →
      ∀ (mode : Bool) (buf c : List Char),
        c ∈ lexScan mode buf cs → ∃ r, c = cleanString r := by
  intro n
  induction n with
  | zero =>
    intro cs hcs mode buf c h
    have : cs = [] := List.length_eq_zero.mp (Nat.le_zero.mp hcs)
    subst this
    rw [lexScan_nil] at h
    simp at h
  | succ n ih =>
    intro cs hcs mode buf c h
    cases cs with
    | nil => rw [lexScan_nil] at h; simp at h
    | cons x rest =>
      have hrest : rest.length ≤ n := by simp at hcs; omega
      cases mode with
      | false =>
        by_cases hx : x = '{' ∧ rest.head? = some '{'
        · obtain ⟨hx1, hx2⟩ := hx
          subst hx1
          cases rest with
          | nil => simp at hx2
          | cons y ys =>
            simp at hx2
            subst hx2
            rw [lexScan_open] at h
            exact ih ys (by simp at hrest; omega) _ _ _ h
        · rw [lexScan_false_cons buf x rest (fun h1 h2 => hx ⟨h1, h2⟩)] at h
          exact ih rest hrest _ _ _ h
      | true =>
        by_cases hx : x = '}' ∧ rest.head? = some '}'
        · obtain ⟨hx1, hx2⟩ := hx
          subst hx1
          cases rest with
          | nil => simp at hx2
          | cons y ys =>
            simp at hx2
            subst hx2
            rw [lexScan_close] at h
            rw [List.mem_cons] at h
            rcases h with h | h
            · exact ⟨buf, h⟩
            · exact ih ys (by simp at hrest; omega) _ _ _ h
        · rw [lexScan_true_cons buf x rest (fun h1 h2 => hx ⟨h1, h2⟩)] at h
          exact ih rest hrest _ _ _ h

/-- The invariant carried by the deduplication fold: every retained content
is cleaned and has a nonempty name. -/
def retainedOK (c : List Char) : Prop :=
  (∃ r, c = cleanString r) ∧ parseName c ≠ []

/-- Equation for dedupStep on an empty name. -/
theorem dedupStep_skip {results content} (hname : parseName content = []) :
    dedupStep results content = results := by
  unfold dedupStep
  rw [if_pos hname]

/-- Equation for dedupStep on a new name. -/
theorem dedupStep_new {results content}
    (hname : parseName content ≠ [])
    (hidx : results.findIdx? (fun r => parseName r = parseName content) = none) :
    dedupStep results content = results ++ [content] := by
  unfold dedupStep
  rw [if_neg hname, hidx]

/-- Equation for dedupStep on a repeated name. -/
theorem dedupStep_upd {results content} {idx : Nat} {old : List Char}
    (hname : parseName content ≠ [])
    (hidx : results.findIdx? (fun r => parseName r = parseName content) = some idx)
    (hget : results.get? idx = some old) :
    dedupStep results content =
      if byteLen old < byteLen content then results.set idx content else results := by
  unfold dedupStep
  rw [if_neg hname, hidx]
  show (match results.get? idx with
    | some old => if byteLen old < byteLen content then results.set idx content else results
    | none => results) = _
  rw [hget]

/-- Equation for dedupStep when the found index is out of range (never
reached, but the embedding is total). -/
theorem dedupStep_oob {results content} {idx : Nat}
    (hname : parseName content ≠ [])
    (hidx : results.findIdx? (fun r => parseName r = parseName content) = some idx)
    (hget : results.get? idx = none) :
    dedupStep results content = results := by
  unfold dedupStep
  rw [if_neg hname, hidx]
  show (match results.get? idx with
    | some old => if byteLen old < byteLen content then results.set idx content else results
    | none => results) = _
  rw [hget]

/-- One deduplication step preserves the invariant when the incoming content
is cleaned. -/
theorem dedupStep_retainedOK {results : List (List Char)}
    {content : List Char}
    (hres : ∀ x ∈ results, retainedOK x) (hc : ∃ r, content = cleanString r) :
    ∀ x ∈ dedupStep results content, retainedOK x := by
  intro x hx
  by_cases hname : parseName content = []
  · rw [dedupStep_skip hname] at hx
    exact hres x hx
  · cases hidx : results.findIdx? (fun r => parseName r = parseName content) with
    | some idx =>
      cases hget : results.get? idx with
      | some old =>
        rw [dedupStep_upd hname hidx hget] at hx
        by_cases hlen : byteLen old < byteLen content
        · rw [if_pos hlen] at hx
          rcases List.mem_or_eq_of_mem_set hx with hmem | heq
          · exact hres x hmem
          · subst heq
            exact ⟨hc, hname⟩
        · rw [if_neg hlen] at hx
          exact hres x hx
      | none =>
        rw [dedupStep_oob hname hidx hget] at hx
        exact hres x hx
    | none =>
      rw [dedupStep_new hname hidx] at hx
      rw [List.mem_append] at hx
      rcases hx with hmem | heq
      · exact hres x hmem
      · simp at heq
        subst heq
        exact ⟨hc, hname⟩

/-- Every content retained by parseBrackets is cleaned and has a nonempty
name. -/
theorem parseBrackets_retainedOK (s : String) :
    ∀ x ∈ parseBrackets s, retainedOK x := by
  unfold parseBrackets
  have main :
      ∀ (contents : List (List Char)) (acc : List (List Char)),
        (∀ x ∈ acc, retainedOK x) →
        (∀ c ∈ contents, ∃ r, c = cleanString r) →
        ∀ x ∈ contents.foldl dedupStep acc, retainedOK x := by
    intro contents
    induction contents with
    | nil => intro acc hacc _ x hx; exact hacc x hx
    | cons c rest ih =>
      intro acc hacc hcont x hx
      rw [List.foldl_cons] at hx
      exact ih (dedupStep acc c)
        (dedupStep_retainedOK hacc (hcont c (by simp)))
        (fun d hd => hcont d (by simp [hd])) x hx
  exact main _ [] (by simp)
    (fun c hc => lexScan_cleanForm s.data.length s.data (le_refl _) false [] c hc)

/-- The name field of every parameter built by parseParamOrSecret is the
nonempty parsed name of a retained content. -/
theorem parseParamOrSecret_name_nonempty (input : String)
    (predicate : Parameter → Bool) :
    ∀ p ∈ parseParamOrSecret input predicate, p.Name.data ≠ [] := by
  intro p hp
  unfold parseParamOrSecret at hp
  have hp' := List.mem_of_mem_filter hp
  rw [List.mem_map] at hp'
  obtain ⟨c, hc, hpc⟩ := hp'
  obtain ⟨⟨r, hr⟩, hname⟩ := parseBrackets_retainedOK input c hc
  have hfst : (splitFirstPipe c).1 = parseName c := by
    rw [hr, splitFirstPipe_cleanString, parseName_cleanString]
  have hdata : p.Name.data = (splitFirstPipe c).1 := by
    cases hsp : splitFirstPipe c with
    | mk h t =>
      cases t with
      | none => rw [← hpc]; simp [hsp]
      | some tl => rw [← hpc]; simp [hsp]
  rw [hdata, hfst]
  exact hname

/-- The parameter checks return the empty-name error only for an empty
name. -/
theorem checkOneParam_nameEmpty {p : Parameter} {parameter b : Bool}
    (h : checkOneParam p parameter = some (.nameEmpty b)) : p.Name.data = [] := by
  unfold checkOneParam at h
  by_cases hd : p.Name.data = []
  · exact hd
  · exfalso
    simp only [hd, if_neg (by exact hd)] at h
    by_cases h1 : '0' ≤ p.Name.data.headD ' ' ∧ p.Name.data.headD ' ' ≤ '9'
    · rw [if_pos h1] at h
      exact BracketsError.noConfusion (Option.some.inj h)
    · rw [if_neg h1] at h
      by_cases h2 : p.Name.data.any (fun r => symbolsList.contains r)
      · rw [if_pos h2] at h
        exact BracketsError.noConfusion (Option.some.inj h)
      · rw [if_neg h2] at h
        by_cases h3 : 40 < p.Name.utf8ByteSize
        · rw [if_pos h3] at h
          exact BracketsError.noConfusion (Option.some.inj h)
        · rw [if_neg h3] at h
          by_cases h4 : p.Name.data.contains ' '
          · rw [if_pos h4] at h
            exact BracketsError.noConfusion (Option.some.inj h)
          · rw [if_neg h4] at h
            exact Option.noConfusion h

/-- Claim C9: ParseParameters never raises the empty-name error: the lexer
discards bracket spans whose trimmed head is empty before validation, so
the ErrNameEmpty branch is unreachable from ParseParameters. -/
theorem parseParameters_no_nameEmpty (s : String) (b : Bool) :
    ParseParameters s ≠ .error (.nameEmpty b) := by
  intro h
  simp only [ParseParameters, checkForInvalidParameters] at h
  cases hf : (parseParamOrSecret s fun p => p.Name.data.headD 'A' ≠ '!').findSome?
      (fun p => checkOneParam p true) with
  | none => rw [hf] at h; exact Except.noConfusion h
  | some e =>
    rw [hf] at h
    have he : e = .nameEmpty b := Except.error.inj h
    subst he
    obtain ⟨p, hp, hcheck⟩ := List.exists_of_findSome?_eq_some hf
    exact parseParamOrSecret_name_nonempty s _ p hp (checkOneParam_nameEmpty hcheck)

/-- Witness for claim C9 at a concrete input. -/
theorem parseParameters_no_nameEmpty_witness :
    ParseParameters "echo \x7b\x7bmsg\x7d\x7d" ≠ .error (.nameEmpty true) :=
  parseParameters_no_nameEmpty "echo \x7b\x7bmsg\x7d\x7d" true

/-
  The run pipeline's value map.
-/

theorem mapLookup_insert_self (m : List (String × String)) (k v : String) :
    mapLookup (mapInsert m k v) k = some v := by
  induction m with
  | nil => simp [mapInsert, mapLookup]
  | cons kv rest ih =>
    by_cases hk : kv.1 = k
    · simp [mapInsert, hk, mapLookup]
    · simp [mapInsert, hk, mapLookup, ih]

theorem mapLookup_insert_other (m : List (String × String)) {k k' : String}
    (v : String) (h : k' ≠ k) :
    mapLookup (mapInsert m k v) k' = mapLookup m k' := by
  have hne : ¬ (k = k') := fun he => h he.symm
  induction m with
  | nil => simp [mapInsert, mapLookup, hne]
  | cons kv rest ih =>
    by_cases hk : kv.1 = k
    · simp [mapInsert, hk, mapLookup, hne]
    · simp [mapInsert, hk, mapLookup, ih]

/-- A key whose value agrees with the store for every secret that writes it
keeps that value through the secrets loop. -/
theorem resolveSecrets_preserves
    (secrets : List BSecret) (store : List StoredSecret) :
    ∀ (m m' : List (String × String)) (k v : String),
      resolveSecrets secrets store m = .ok m' →
      mapLookup m k = some v →
      (∀ t ∈ secrets, "!" ++ t.Name = k → storeLookup store t.Name = some v) →
      mapLookup m' k = some v := by
  induction secrets with
  | nil =>
    intro m m' k v hres hk _
    cases hres
    exact hk
  | cons t rest ih =>
    intro m m' k v hres hk hall
    unfold resolveSecrets at hres
    cases hsv : storeLookup store t.Name with
    | none => rw [hsv] at hres; exact Except.noConfusion hres
    | some vt =>
      rw [hsv] at hres
      by_cases hkey : "!" ++ t.Name = k
      · have hvt : vt = v := by
          have := hall t (by simp) hkey
          rw [hsv] at this
          exact Option.some.inj this
        subst hvt
        exact ih _ _ k vt hres
          (by rw [← hkey]; exact mapLookup_insert_self m _ vt)
          (fun u hu hk2 => hall u (by simp [hu]) hk2)
      · exact ih _ _ k v hres
          (by rw [mapLookup_insert_other m vt (fun he => hkey he.symm)]; exact hk)
          (fun u hu hk2 => hall u (by simp [hu]) hk2)

/-- Bang-prefixed keys determine the secret name. -/
theorem bang_append_inj {a b : String} (h : "!" ++ a = "!" ++ b) : a = b := by
  have hd : ("!" ++ a).data = ("!" ++ b).data := by rw [h]
  rw [String.data_append, String.data_append] at hd
  have hdata : a.data = b.data := by
    simpa using hd
  cases a
  cases b
  exact congrArg String.mk hdata

/-- Claim C8: during run, every secret name of the template whose key is in
the store ends up in the value map under its bang-prefixed key with the
stored secret's value, regardless of what the caller-supplied map contained
under that key: caller values do not override resolved secrets. -/
theorem run_secrets_override (secrets : List BSecret) (store : List StoredSecret)
    (callerMap finalMap : List (String × String)) (s : BSecret) (v : String)
    (hs : s ∈ secrets)
    (hres : resolveSecrets secrets store callerMap = .ok finalMap)
    (hv : storeLookup store s.Name = some v) :
    mapLookup finalMap ("!" ++ s.Name) = some v := by
  induction secrets generalizing callerMap with
  | nil => simp at hs
  | cons t rest ih =>
    unfold resolveSecrets at hres
    cases hsv : storeLookup store t.Name with
    | none => rw [hsv] at hres; exact Except.noConfusion hres
    | some vt =>
      rw [hsv] at hres
      rcases List.mem_cons.mp hs with hst | hsrest
      · subst hst
        have hvt : vt = v := by
          rw [hsv] at hv
          exact Option.some.inj hv
        subst hvt
        exact resolveSecrets_preserves rest store _ _ _ _ hres
          (mapLookup_insert_self callerMap _ vt)
          (fun u _ hk2 => by
            rw [bang_append_inj hk2]
            exact hv)
      · exact ih _ hsrest hres

/-- Witness for claim C8: a caller-supplied entry under the bang key is
overridden by the stored secret. -/
theorem run_secrets_override_witness :
    mapLookup
      (match resolveSecrets [BSecret.mk "api_key" ""]
          [StoredSecret.mk "api_key" "KKK"] [("!api_key", "caller")] with
        | .ok m => m
        | .error _ => []) "!api_key" = some "KKK" := by
  have h := run_secrets_override [BSecret.mk "api_key" ""]
    [StoredSecret.mk "api_key" "KKK"] [("!api_key", "caller")]
    [("!api_key", "KKK")] (BSecret.mk "api_key" "") "KKK"
    (by decide) (by decide) (by decide)
  simpa using h

/-- Claim C1 (code evaluated at the failing input): the run pipeline
hydrates through HydrateStringFromJSON, the safe JSON form, not the strict
HydrateString; with the stored command echo followed by a msg span and the
caller payload an empty object, the pipeline succeeds and hands the
template, still containing the span, to the shell runner instead of
failing with MissingParameters. -/
theorem run_missing_parameter_not_strict :
    runCmdPipeline "echo \x7b\x7bmsg|what to say\x7d\x7d" "\x7b\x7d" [] =
      .ok "echo \x7b\x7bmsg|what to say\x7d\x7d" ∧
    HydrateString "echo \x7b\x7bmsg|what to say\x7d\x7d" [] =
      .error (.missingParameters ["msg"]) := by
  constructor
  · decide
  · decide

/-- Claim C6 (code evaluated at the failing input): on an input with an
unterminated open, normalization drops the text between the open and the
final character instead of emitting the remainder as literal, and safe
hydration duplicates the prefix and renders a dangling placeholder as the
MISSING diagnostic; only descriptor extraction treats the remainder as
inert. -/
theorem unterminated_open_not_literal :
    ParseCommand "a\x7b\x7bbcd" = "a\x7b\x7bd" ∧
    HydrateStringSafe "a\x7b\x7bbcd" [] = "a%!s(MISSING)a\x7b\x7bbcd" ∧
    parseBrackets "a\x7b\x7bbcd" = [] := by
  refine ⟨by decide, by decide, by decide⟩

/-
  Three-way merge resolution.
-/

/-- Modelled from the claim's resolution rule for ThreeWayMerge (byte
lengths, ties keep the priority side): for a name N of the priority list,
if N was absent from before, keep the priority description unless the
updated side has a strictly longer one; if N existed and both sides differ
from before, keep the longer with ties to priority; if only the updated
side differs, take it; otherwise keep the priority description. -/
def threeWayRule (p beforeP updatedP : List Parameter) (n : String) : String :=
  let pd := (toMapLookup p n).getD ""
  match toMapLookup beforeP n with
  | none =>
    match toMapLookup updatedP n with
    | some u => if u.utf8ByteSize > pd.utf8ByteSize then u else pd
    | none => pd
  | some b =>
    match toMapLookup updatedP n with
    | some u =>
      if pd ≠ b ∧ u ≠ b then (if u.utf8ByteSize > pd.utf8ByteSize then u else pd)
      else if u ≠ b then u
      else pd
    | none => pd

/-- The name sequence of a cons. -/
theorem namesOf_cons (q : Parameter) (rest : List Parameter) :
    namesOf (q :: rest) = q.Name :: namesOf rest := rfl

/-- Lookup misses exactly the absent names. -/
theorem toMapLookup_eq_none :
    ∀ {p : List Parameter} {n : String}, n ∉ namesOf p → toMapLookup p n = none := by
  intro p
  induction p with
  | nil => intro n _; rfl
  | cons q rest ih =>
    intro n h
    rw [namesOf_cons, List.mem_cons] at h
    push_neg at h
    unfold toMapLookup
    rw [ih h.2]
    simp [fun he : q.Name = n => h.1 he.symm]
    exact fun he => h.1 he.symm

/-- Lookup hits every present name. -/
theorem toMapLookup_isSome :
    ∀ {p : List Parameter} {n : String}, n ∈ namesOf p → (toMapLookup p n).isSome := by
  intro p
  induction p with
  | nil => intro n h; simp [namesOf] at h
  | cons q rest ih =>
    intro n h
    unfold toMapLookup
    cases hr : toMapLookup rest n with
    | some d => simp
    | none =>
      have hnr : n ∉ namesOf rest := by
        intro hm
        have hi := ih hm
        rw [hr] at hi
        exact Bool.noConfusion hi
      rw [namesOf_cons, List.mem_cons] at h
      have hq : q.Name = n := by
        rcases h with h | h
        · exact h.symm
        · exact absurd h hnr
      simp [hq]

/-- The overwrite loop fails exactly on absent names. -/
theorem replaceLoop_eq_none :
    ∀ {p : List Parameter} {n d : String},
      replaceLoop p n d = none → n ∉ namesOf p := by
  intro p
  induction p with
  | nil => intro n d _; simp [namesOf]
  | cons q rest ih =>
    intro n d h
    unfold replaceLoop at h
    by_cases hq : q.Name = n
    · rw [if_pos hq] at h
      exact Option.noConfusion h
    · rw [if_neg hq] at h
      cases hr : replaceLoop rest n d with
      | some r => rw [hr] at h; exact Option.noConfusion h
      | none =>
        intro hm
        rw [namesOf_cons, List.mem_cons] at hm
        rcases hm with hm | hm
        · exact hq hm.symm
        · exact ih hr hm

/-- Replace on a present name keeps the name sequence. -/
theorem replace_namesOf {p : List Parameter} {n d : String}
    (h : n ∈ namesOf p) : namesOf (Replace p n d) = namesOf p := by
  unfold Replace
  cases hl : replaceLoop p n d with
  | some p' => exact replaceLoop_namesOf hl
  | none => exact absurd h (replaceLoop_eq_none hl)

/-- The overwrite loop leaves lookups of other names unchanged. -/
theorem replaceLoop_lookup_other {p : List Parameter} {n d m : String}
    {p' : List Parameter} (hl : replaceLoop p n d = some p') (hm : m ≠ n) :
    toMapLookup p' m = toMapLookup p m := by
  induction p generalizing p' with
  | nil => simp [replaceLoop] at hl
  | cons q rest ih =>
    unfold replaceLoop at hl
    by_cases hq : q.Name = n
    · rw [if_pos hq] at hl
      cases hl
      unfold toMapLookup
      cases toMapLookup rest m with
      | some d2 => rfl
      | none =>
        have hqm : q.Name ≠ m := by
          rw [hq]
          exact fun he => hm he.symm
        simp [hqm]
    · rw [if_neg hq] at hl
      cases hr : replaceLoop rest n d with
      | none => rw [hr] at hl; exact Option.noConfusion hl
      | some r =>
        rw [hr] at hl
        cases hl
        unfold toMapLookup
        rw [ih hr]

/-- The overwrite loop rewrites the looked-up description when the names
are unique. -/
theorem replaceLoop_lookup_self {p : List Parameter} {n d : String}
    {p' : List Parameter} (hl : replaceLoop p n d = some p')
    (hnd : (namesOf p).Nodup) :
    toMapLookup p' n = some d := by
  induction p generalizing p' with
  | nil => simp [replaceLoop] at hl
  | cons q rest ih =>
    unfold replaceLoop at hl
    have hnd' : (namesOf rest).Nodup ∧ q.Name ∉ namesOf rest := by
      simp [namesOf] at hnd ⊢
      exact ⟨hnd.2, fun x hx he => hnd.1 x hx he⟩
    by_cases hq : q.Name = n
    · rw [if_pos hq] at hl
      cases hl
      unfold toMapLookup
      rw [toMapLookup_eq_none (hq ▸ hnd'.2)]
      simp [hq]
    · rw [if_neg hq] at hl
      cases hr : replaceLoop rest n d with
      | none => rw [hr] at hl; exact Option.noConfusion hl
      | some r =>
        rw [hr] at hl
        cases hl
        unfold toMapLookup
        rw [ih hr hnd'.1]

/-- Replace on a present name under unique names: the name now maps to the
new description. -/
theorem replace_lookup_self {p : List Parameter} {n d : String}
    (h : n ∈ namesOf p) (hnd : (namesOf p).Nodup) :
    toMapLookup (Replace p n d) n = some d := by
  unfold Replace
  cases hl : replaceLoop p n d with
  | some p' => exact replaceLoop_lookup_self hl hnd
  | none => exact absurd h (replaceLoop_eq_none hl)

/-- Replace on a present name leaves other lookups unchanged. -/
theorem replace_lookup_other {p : List Parameter} {n d m : String}
    (h : n ∈ namesOf p) (hm : m ≠ n) :
    toMapLookup (Replace p n d) m = toMapLookup p m := by
  unfold Replace
  cases hl : replaceLoop p n d with
  | some p' => exact replaceLoop_lookup_other hl hm
  | none => exact absurd h (replaceLoop_eq_none hl)

/-- One merge step either keeps the list or replaces the description of its
own name. -/
theorem threeWayStep_cases (beforeP updatedP acc : List Parameter) (n : String) :
    threeWayStep beforeP updatedP acc n = acc ∨
      ∃ d, threeWayStep beforeP updatedP acc n = Replace acc n d := by
  unfold threeWayStep
  cases toMapLookup beforeP n with
  | none =>
    cases toMapLookup updatedP n with
    | none => exact Or.inl rfl
    | some u =>
      by_cases hlen : u.utf8ByteSize > ((descriptionOf acc n).getD "").utf8ByteSize
      · exact Or.inr ⟨u, by simp [hlen]⟩
      · exact Or.inl (by simp [hlen])
  | some b =>
    cases toMapLookup updatedP n with
    | none => exact Or.inl rfl
    | some u =>
      by_cases h1 : (descriptionOf acc n).getD "" ≠ b ∧ u ≠ b
      · by_cases hlen : u.utf8ByteSize > ((descriptionOf acc n).getD "").utf8ByteSize
        · exact Or.inr ⟨u, by simp [h1, hlen]⟩
        · exact Or.inl (by simp [h1, hlen])
      · by_cases h2 : u ≠ b
        · have hpd : (descriptionOf acc n).getD "" = b := by
            by_contra hc
            exact h1 ⟨hc, h2⟩
          exact Or.inr ⟨u, by simp [hpd, h2]⟩
        · have hu : u = b := not_not.mp h2
          exact Or.inl (by simp [hu])

/-- One merge step preserves the name sequence. -/
theorem threeWayStep_namesOf (beforeP updatedP acc : List Parameter)
    {n : String} (h : n ∈ namesOf acc) :
    namesOf (threeWayStep beforeP updatedP acc n) = namesOf acc := by
  rcases threeWayStep_cases beforeP updatedP acc n with he | ⟨d, he⟩
  · rw [he]
  · rw [he, replace_namesOf h]

/-- One merge step leaves lookups of other names unchanged. -/
theorem threeWayStep_lookup_other (beforeP updatedP acc : List Parameter)
    {n m : String} (h : n ∈ namesOf acc) (hm : m ≠ n) :
    toMapLookup (threeWayStep beforeP updatedP acc n) m = toMapLookup acc m := by
  rcases threeWayStep_cases beforeP updatedP acc n with he | ⟨d, he⟩
  · rw [he]
  · rw [he, replace_lookup_other h hm]

/-- One merge step resolves its own name to the claim's rule value. -/
theorem threeWayStep_lookup_self (beforeP updatedP acc : List Parameter)
    {n : String} (h : n ∈ namesOf acc) (hnd : (namesOf acc).Nodup) :
    toMapLookup (threeWayStep beforeP updatedP acc n) n =
      some (threeWayRule acc beforeP updatedP n) := by
  have hself : toMapLookup acc n = some ((toMapLookup acc n).getD "") := by
    cases hl : toMapLookup acc n with
    | some d => rfl
    | none =>
      have := toMapLookup_isSome h
      rw [hl] at this
      exact Bool.noConfusion this
  unfold threeWayStep threeWayRule descriptionOf
  cases toMapLookup beforeP n with
  | none =>
    cases toMapLookup updatedP n with
    | none => exact hself
    | some u =>
      by_cases hlen : u.utf8ByteSize > ((toMapLookup acc n).getD "").utf8ByteSize
      · simp only [hlen, if_pos (by exact hlen)]
        simp [replace_lookup_self h hnd]
      · simp only [if_neg hlen]
        exact hself
  | some b =>
    cases toMapLookup updatedP n with
    | none => exact hself
    | some u =>
      by_cases h1 : (toMapLookup acc n).getD "" ≠ b ∧ u ≠ b
      · by_cases hlen : u.utf8ByteSize > ((toMapLookup acc n).getD "").utf8ByteSize
        · simp only [if_pos h1, if_pos hlen]
          simp [replace_lookup_self h hnd]
        · simp only [if_pos h1, if_neg hlen]
          exact hself
      · by_cases h2 : u ≠ b
        · simp only [if_neg h1, if_pos h2]
          simp [replace_lookup_self h hnd]
        · simp only [if_neg h1, if_neg h2]
          exact hself

/-- The merge fold: with pairwise-distinct names on the receiver, each name
in the iteration list resolves to the claim's rule value computed from the
initial state, other names keep their value, and the name sequence is
preserved. -/
theorem merge_foldl (beforeP updatedP : List Parameter) :
    ∀ (L : List String) (acc : List Parameter),
      (namesOf acc).Nodup → L.Nodup → (∀ n ∈ L, n ∈ namesOf acc) →
      namesOf (L.foldl (threeWayStep beforeP updatedP) acc) = namesOf acc ∧
      (∀ n ∈ L,
        toMapLookup (L.foldl (threeWayStep beforeP updatedP) acc) n =
          some (threeWayRule acc beforeP updatedP n)) ∧
      (∀ n, n ∉ L →
        toMapLookup (L.foldl (threeWayStep beforeP updatedP) acc) n =
          toMapLookup acc n) := by
  intro L
  induction L with
  | nil => intro acc h1 _ _; exact ⟨rfl, by simp, fun n _ => rfl⟩
  | cons m L' ih =>
    intro acc hacc hL hmem
    have hm : m ∈ namesOf acc := hmem m (by simp)
    have hL' : L'.Nodup := (List.nodup_cons.mp hL).2
    have hmL' : m ∉ L' := (List.nodup_cons.mp hL).1
    set acc' := threeWayStep beforeP updatedP acc m with hacc'
    have hnames' : namesOf acc' = namesOf acc :=
      threeWayStep_namesOf beforeP updatedP acc hm
    have hacc'nd : (namesOf acc').Nodup := by rw [hnames']; exact hacc
    have hmem' : ∀ n ∈ L', n ∈ namesOf acc' := by
      intro n hn
      rw [hnames']
      exact hmem n (by simp [hn])
    obtain ⟨ihnames, ihself, ihother⟩ := ih acc' hacc'nd hL' hmem'
    rw [List.foldl_cons]
    refine ⟨by rw [← hacc', ihnames, hnames'], ?_, ?_⟩
    · intro n hn
      rw [List.mem_cons] at hn
      rcases hn with hn | hn
      · subst hn
        rw [ihother n hmL']
        rw [threeWayStep_lookup_self beforeP updatedP acc hm hacc]
      · have hne : n ≠ m := fun he => hmL' (he ▸ hn)
        rw [ihself n hn]
        have hrule : threeWayRule acc' beforeP updatedP n =
            threeWayRule acc beforeP updatedP n := by
          unfold threeWayRule
          rw [threeWayStep_lookup_other beforeP updatedP acc hm hne]
        rw [hrule]
    · intro n hn
      rw [List.mem_cons] at hn
      push_neg at hn
      rw [ihother n hn.2]
      exact threeWayStep_lookup_other beforeP updatedP acc hm hn.1

/-- Claim C2: with pairwise-distinct names on the priority side,
ThreeWayMerge keeps the name sequence of the priority list and resolves
every name to the claim's rule: a name new relative to before keeps the
priority description unless the updated one is strictly longer in bytes; a
name present in before takes the longer of the two changed descriptions
with ties kept by priority when both changed, the updated description when
only it changed, and the priority description otherwise. -/
theorem threeWayMerge_resolution (p beforeP updatedP : List Parameter)
    (hnd : (namesOf p).Nodup) :
    namesOf (ThreeWayMerge p beforeP updatedP) = namesOf p ∧
    ∀ n ∈ namesOf p,
      toMapLookup (ThreeWayMerge p beforeP updatedP) n =
        some (threeWayRule p beforeP updatedP n) := by
  unfold ThreeWayMerge
  obtain ⟨h1, h2, _⟩ :=
    merge_foldl beforeP updatedP (namesOf p) p hnd hnd (fun n hn => hn)
  exact ⟨h1, h2⟩

/-- Witness for claim C2 at the both-changed scenario of the spec: the
longer updated description wins. -/
theorem threeWayMerge_resolution_witness :
    namesOf (ThreeWayMerge [Parameter.mk "alpha" "priority changed"]
        [Parameter.mk "alpha" "original"]
        [Parameter.mk "alpha" "updated changed longer"]) = ["alpha"] ∧
    toMapLookup (ThreeWayMerge [Parameter.mk "alpha" "priority changed"]
        [Parameter.mk "alpha" "original"]
        [Parameter.mk "alpha" "updated changed longer"]) "alpha" =
      some "updated changed longer" := by
  obtain ⟨h1, h2⟩ := threeWayMerge_resolution
    [Parameter.mk "alpha" "priority changed"]
    [Parameter.mk "alpha" "original"]
    [Parameter.mk "alpha" "updated changed longer"] (by decide)
  refine ⟨h1, ?_⟩
  rw [h2 "alpha" (by decide)]
  decide

/-
  parseBrackets deduplication against the claim's declarative description.
-/

/-- Recursive characterization of one deduplication step for a nonempty
name: walk the retained list and update the first entry with the same name
(keeping the longer content, byte-wise, with ties keeping the stored one),
appending at the end when the name is new. -/
def updFirst : List (List Char) → List Char → List (List Char)
  | [], c => [c]
  | r :: rest, c =>
    if parseName r = parseName c then
      (if byteLen r < byteLen c then c else r) :: rest
    else r :: updFirst rest c

/-- The indexed update of dedupStep coincides with the recursive walk. -/
theorem dedupStep_eq_updFirst {content : List Char}
    (hname : parseName content ≠ []) :
    ∀ results, dedupStep results content = updFirst results content := by
  intro results
  induction results with
  | nil =>
    rw [dedupStep_new hname (by simp)]
    rfl
  | cons r rest ih =>
    by_cases hr : parseName r = parseName content
    · have hidx : (r :: rest).findIdx?
          (fun x => parseName x = parseName content) = some 0 := by
        rw [List.findIdx?_cons]
        simp [hr]
      have hget : (r :: rest).get? 0 = some r := rfl
      rw [dedupStep_upd hname hidx hget]
      unfold updFirst
      rw [if_pos hr]
      by_cases hlen : byteLen r < byteLen content
      · rw [if_pos hlen, if_pos hlen]
        rfl
      · rw [if_neg hlen, if_neg hlen]
    · cases hfi : rest.findIdx? (fun x => parseName x = parseName content) with
      | none =>
        have hidx : (r :: rest).findIdx?
            (fun x => parseName x = parseName content) = none := by
          rw [List.findIdx?_cons]
          simp [hr, List.findIdx?_succ, hfi]
        rw [dedupStep_new hname hidx]
        unfold updFirst
        rw [if_neg hr]
        rw [← ih, dedupStep_new hname hfi]
        rfl
      | some j =>
        cases hgj : rest.get? j with
        | none =>
          have hidx : (r :: rest).findIdx?
              (fun x => parseName x = parseName content) = some (j + 1) := by
            rw [List.findIdx?_cons]
            simp [hr, List.findIdx?_succ, hfi]
          have hget : (r :: rest).get? (j + 1) = none := hgj
          rw [dedupStep_oob hname hidx hget]
          unfold updFirst
          rw [if_neg hr]
          rw [← ih, dedupStep_oob hname hfi hgj]
        | some old =>
          have hidx : (r :: rest).findIdx?
              (fun x => parseName x = parseName content) = some (j + 1) := by
            rw [List.findIdx?_cons]
            simp [hr, List.findIdx?_succ, hfi]
          have hget : (r :: rest).get? (j + 1) = some old := hgj
          rw [dedupStep_upd hname hidx hget]
          unfold updFirst
          rw [if_neg hr]
          rw [← ih, dedupStep_upd hname hfi hgj]
          by_cases hlen : byteLen old < byteLen content
          · rw [if_pos hlen, if_pos hlen]
            rfl
          · rw [if_neg hlen, if_neg hlen]

/-- First occurrences of a list of names, given the names already seen. -/
def firstOccAux (seen : List (List Char)) : List (List Char) → List (List Char)
  | [] => []
  | n :: rest =>
    if n ∈ seen then firstOccAux seen rest else n :: firstOccAux (n :: seen) rest

/-- Modelled from the claim: among the duplicates of a name, the retained
content is the longest one (in bytes), with ties keeping the earliest. -/
def chooseLongest : List (List Char) → List Char
  | [] => []
  | d :: rest => rest.foldl (fun best c => if byteLen best < byteLen c then c else best) d

/-- Modelled from the claim: descriptor extraction keeps, for each name in
order of first appearance (spans with empty names discarded), the longest
inner content among that name's duplicates. -/
def parseBracketsSpec (spans : List (List Char)) : List (List Char) :=
  let named := spans.filter (fun c => parseName c ≠ [])
  (firstOccAux [] (named.map parseName)).map
    (fun n => chooseLongest (named.filter (fun c => parseName c = n)))

theorem mem_firstOccAux :
    ∀ (l seen : List (List Char)) (x : List Char),
      x ∈ firstOccAux seen l ↔ x ∉ seen ∧ x ∈ l := by
  intro l
  induction l with
  | nil => intro seen x; simp [firstOccAux]
  | cons n rest ih =>
    intro seen x
    unfold firstOccAux
    by_cases hn : n ∈ seen
    · rw [if_pos hn, ih]
      constructor
      · exact fun ⟨h1, h2⟩ => ⟨h1, by simp [h2]⟩
      · rintro ⟨h1, h2⟩
        rw [List.mem_cons] at h2
        rcases h2 with h2 | h2
        · subst h2; exact absurd hn h1
        · exact ⟨h1, h2⟩
    · rw [if_neg hn]
      constructor
      · intro hx
        rw [List.mem_cons] at hx
        rcases hx with hx | hx
        · subst hx; exact ⟨hn, by simp⟩
        · rw [ih] at hx
          refine ⟨fun hs => hx.1 (by simp [hs]), by simp [hx.2]⟩
      · rintro ⟨h1, h2⟩
        rw [List.mem_cons] at h2
        rcases h2 with h2 | h2
        · subst h2; simp
        · by_cases hxn : x = n
          · subst hxn; simp
          · rw [List.mem_cons, ih]
            exact Or.inr ⟨by simp [hxn, h1], h2⟩

theorem nodup_firstOccAux :
    ∀ (l seen : List (List Char)), (firstOccAux seen l).Nodup := by
  intro l
  induction l with
  | nil => intro seen; simp [firstOccAux]
  | cons n rest ih =>
    intro seen
    unfold firstOccAux
    by_cases hn : n ∈ seen
    · rw [if_pos hn]; exact ih seen
    · rw [if_neg hn]
      rw [List.nodup_cons]
      refine ⟨?_, ih (n :: seen)⟩
      intro hm
      rw [mem_firstOccAux] at hm
      exact hm.1 (by simp)

theorem firstOccAux_append_singleton :
    ∀ (l seen : List (List Char)) (n : List Char),
      firstOccAux seen (l ++ [n]) =
        firstOccAux seen l ++ (if n ∈ seen ∨ n ∈ l then [] else [n]) := by
  intro l
  induction l with
  | nil =>
    intro seen n
    unfold firstOccAux
    by_cases hn : n ∈ seen
    · simp [firstOccAux, hn]
    · simp [firstOccAux, hn]
  | cons m rest ih =>
    intro seen n
    rw [List.cons_append]
    unfold firstOccAux
    by_cases hm : m ∈ seen
    · rw [if_pos hm, if_pos hm, ih]
      by_cases hcond : n ∈ seen ∨ n ∈ rest
      · rw [if_pos hcond, if_pos (by
          rcases hcond with h | h
          · exact Or.inl h
          · exact Or.inr (by simp [h]))]
      · by_cases hnm : n = m
        · rw [if_pos (Or.inl (hnm ▸ hm)), if_pos (Or.inr (by simp [hnm]))]
        · rw [if_neg hcond, if_neg (by
            push_neg at hcond ⊢
            exact ⟨hcond.1, by simp [hnm, hcond.2]⟩)]
    · rw [if_neg hm, if_neg hm, ih]
      by_cases hcond : n ∈ m :: seen ∨ n ∈ rest
      · rw [if_pos hcond, if_pos (by
          rcases hcond with h | h
          · rw [List.mem_cons] at h
            rcases h with h | h
            · exact Or.inr (by simp [h])
            · exact Or.inl h
          · exact Or.inr (by simp [h]))]
        simp
      · rw [if_neg hcond, if_neg (by
          push_neg at hcond ⊢
          have h1 := hcond.1
          rw [List.mem_cons] at h1
          push_neg at h1
          exact ⟨h1.2, by simp [h1.1, hcond.2]⟩)]
        simp

theorem foldl_choose_mem :
    ∀ (rest : List (List Char)) (d : List Char),
      rest.foldl (fun best c => if byteLen best < byteLen c then c else best) d ∈
        d :: rest := by
  intro rest
  induction rest with
  | nil => intro d; simp
  | cons c rest ih =>
    intro d
    rw [List.foldl_cons]
    by_cases h : byteLen d < byteLen c
    · rw [if_pos h]
      have := ih c
      rw [List.mem_cons] at this ⊢
      rcases this with h2 | h2
      · exact Or.inr (by simp [h2])
      · exact Or.inr (by simp [h2])
    · rw [if_neg h]
      have := ih d
      rw [List.mem_cons] at this ⊢
      rcases this with h2 | h2
      · exact Or.inl h2
      · exact Or.inr (by simp [h2])

theorem chooseLongest_mem {dups : List (List Char)} (h : dups ≠ []) :
    chooseLongest dups ∈ dups := by
  cases dups with
  | nil => exact absurd rfl h
  | cons d rest => exact foldl_choose_mem rest d

theorem chooseLongest_append {dups : List (List Char)} (c : List Char)
    (h : dups ≠ []) :
    chooseLongest (dups ++ [c]) =
      if byteLen (chooseLongest dups) < byteLen c then c
      else chooseLongest dups := by
  cases dups with
  | nil => exact absurd rfl h
  | cons d rest =>
    show (rest ++ [c]).foldl _ d = _
    rw [List.foldl_append]
    rfl

/-- Updating a list whose names all differ from the new content appends. -/
theorem updFirst_not_found :
    ∀ {results : List (List Char)} {c : List Char},
      (∀ r ∈ results, parseName r ≠ parseName c) →
      updFirst results c = results ++ [c] := by
  intro results
  induction results with
  | nil => intro c _; rfl
  | cons r rest ih =>
    intro c h
    unfold updFirst
    rw [if_neg (h r (by simp)), ih (fun x hx => h x (by simp [hx]))]
    simp

/-- Updating a named projection at a present name rewrites exactly that
name's entry. -/
theorem updFirst_map_mem :
    ∀ (names : List (List Char)) (F : List Char → List Char)
      (n : List Char) (c : List Char),
      names.Nodup → n ∈ names → (∀ m ∈ names, parseName (F m) = m) →
      parseName c = n →
      updFirst (names.map F) c =
        names.map (fun m =>
          if m = n then (if byteLen (F n) < byteLen c then c else F n) else F m) := by
  intro names
  induction names with
  | nil => intro F n c _ hn _ _; simp at hn
  | cons m rest ih =>
    intro F n c hnd hn hF hc
    rw [List.map_cons, List.map_cons]
    by_cases hmn : m = n
    · subst hmn
      unfold updFirst
      rw [if_pos (by rw [hF m (by simp), hc])]
      have hnotin : m ∉ rest := (List.nodup_cons.mp hnd).1
      rw [if_pos rfl]
      congr 1
      symm
      apply List.map_congr_left
      intro a ha
      rw [if_neg (fun he : a = m => hnotin (he ▸ ha))]
    · unfold updFirst
      have hFm : parseName (F m) = m := hF m (by simp)
      rw [if_neg (by rw [hFm, hc]; exact hmn)]
      rw [if_neg hmn]
      congr 1
      have hn' : n ∈ rest := by
        rw [List.mem_cons] at hn
        rcases hn with hn | hn
        · exact absurd hn.symm hmn
        · exact hn
      exact ih F n c (List.nodup_cons.mp hnd).2 hn'
        (fun a ha => hF a (by simp [ha])) hc

/-- A name absent from the projection makes the filter empty. -/
theorem filter_name_eq_nil {named : List (List Char)} {n : List Char}
    (h : n ∉ named.map parseName) :
    named.filter (fun c => parseName c = n) = [] := by
  rw [List.filter_eq_nil_iff]
  intro a ha
  simp only [decide_eq_true_eq]
  intro he
  exact h (by rw [← he]; exact List.mem_map_of_mem parseName ha)

/-- A name present in the projection makes the filter nonempty. -/
theorem filter_name_ne_nil {named : List (List Char)} {n : List Char}
    (h : n ∈ named.map parseName) :
    named.filter (fun c => parseName c = n) ≠ [] := by
  rw [List.mem_map] at h
  obtain ⟨a, ha, hpa⟩ := h
  intro hnil
  have : a ∈ named.filter (fun c => parseName c = n) :=
    List.mem_filter.mpr ⟨ha, by simp [hpa]⟩
  rw [hnil] at this
  simp at this

/-- The retained entry of a name carries that name. -/
theorem parseName_chooseLongest_filter {named : List (List Char)}
    {n : List Char} (h : n ∈ named.map parseName) :
    parseName (chooseLongest (named.filter (fun c => parseName c = n))) = n := by
  have hmem := chooseLongest_mem (filter_name_ne_nil h)
  have := List.mem_filter.mp hmem
  simpa using this.2

/-- The deduplication fold realizes the declarative description. -/
theorem dedupFold_spec :
    ∀ spans : List (List Char), spans.foldl dedupStep [] = parseBracketsSpec spans := by
  intro spans
  induction spans using List.reverseRecOn with
  | nil => rfl
  | append_singleton l c ih =>
    rw [List.foldl_append, List.foldl_cons, List.foldl_nil, ih]
    by_cases hname : parseName c = []
    · rw [dedupStep_skip hname]
      simp only [parseBracketsSpec, List.filter_append]
      simp [hname]
    · have hfilter : (l ++ [c]).filter (fun x => parseName x ≠ []) =
          l.filter (fun x => parseName x ≠ []) ++ [c] := by
        rw [List.filter_append]
        simp [hname]
      set named := l.filter (fun x => parseName x ≠ []) with hnamed
      have hFname : ∀ m ∈ firstOccAux [] (named.map parseName),
          parseName (chooseLongest (named.filter (fun x => parseName x = m))) = m := by
        intro m hm
        exact parseName_chooseLongest_filter
          ((mem_firstOccAux (named.map parseName) [] m).mp hm).2
      by_cases hin : parseName c ∈ named.map parseName
      · -- repeated name: the first occurrence's entry is updated in place
        have hnmem : parseName c ∈ firstOccAux [] (named.map parseName) :=
          (mem_firstOccAux (named.map parseName) [] (parseName c)).mpr
            ⟨by simp, hin⟩
        rw [dedupStep_eq_updFirst hname]
        have hupd := updFirst_map_mem (firstOccAux [] (named.map parseName))
          (fun n => chooseLongest (named.filter (fun x => parseName x = n)))
          (parseName c) c (nodup_firstOccAux (named.map parseName) [])
          hnmem hFname rfl
        simp only [parseBracketsSpec] at hupd ⊢
        rw [hupd, hfilter, List.map_append]
        simp only [List.map_cons, List.map_nil]
        rw [firstOccAux_append_singleton]
        rw [if_pos (Or.inr hin)]
        rw [List.append_nil]
        apply List.map_congr_left
        intro m hm
        rw [List.filter_append]
        by_cases hmn : m = parseName c
        · subst hmn
          rw [if_pos rfl]
          have hsing : [c].filter (fun x => parseName x = parseName c) = [c] := by
            simp
          rw [hsing, chooseLongest_append c (filter_name_ne_nil hin)]
        · rw [if_neg hmn]
          have hsing : [c].filter (fun x => parseName x = m) = [] := by
            simp only [List.filter_cons, List.filter_nil]
            rw [if_neg (by simp only [decide_eq_true_eq]; exact fun he => hmn he.symm)]
          rw [hsing, List.append_nil]
      · -- new name: appended at the end
        rw [dedupStep_eq_updFirst hname]
        have hall : ∀ r ∈ (firstOccAux [] (named.map parseName)).map
            (fun n => chooseLongest (named.filter (fun x => parseName x = n))),
            parseName r ≠ parseName c := by
          intro r hr
          rw [List.mem_map] at hr
          obtain ⟨m, hm, hrm⟩ := hr
          rw [← hrm, hFname m hm]
          intro he
          exact hin (he ▸ ((mem_firstOccAux (named.map parseName) [] m).mp hm).2)
        simp only [parseBracketsSpec]
        rw [updFirst_not_found hall]
        rw [hfilter, List.map_append]
        simp only [List.map_cons, List.map_nil]
        rw [firstOccAux_append_singleton]
        rw [if_neg (by
          push_neg
          exact ⟨by simp, hin⟩)]
        rw [List.map_append]
        congr 1
        · apply List.map_congr_left
          intro m hm
          rw [List.filter_append]
          have hsing : [c].filter (fun x => parseName x = m) = [] := by
            have : parseName c ≠ m := by
              intro he
              exact hin (he ▸ ((mem_firstOccAux (named.map parseName) [] m).mp hm).2)
            simp [this]
          rw [hsing, List.append_nil]
        · simp only [List.map_cons, List.map_nil]
          rw [List.filter_append]
          rw [filter_name_eq_nil hin]
          have hsing : [c].filter (fun x => parseName x = parseName c) = [c] := by
            simp
          rw [hsing]
          rfl

/-- Claim C5: for every input, descriptor extraction retains, for each name
in order of first appearance (spans with empty trimmed heads discarded),
the content with the longest normalized head-pipe-tail inner content among
that name's duplicates (byte lengths; ties keep the earliest), at the
position of the name's first appearance. Both parameter and secret
extraction consume exactly this retained list. -/
theorem parseBrackets_dedup (s : String) :
    parseBrackets s = parseBracketsSpec (spanContents s.data) ∧
    (∀ predicate, parseParamOrSecret s predicate =
      ((parseBracketsSpec (spanContents s.data)).map (fun c =>
        match splitFirstPipe c with
        | (h, none) => Parameter.mk ⟨h⟩ ""
        | (h, some t) => Parameter.mk ⟨h⟩ ⟨t⟩)).filter predicate) := by
  have hmain : parseBrackets s = parseBracketsSpec (spanContents s.data) :=
    dedupFold_spec (spanContents s.data)
  refine ⟨hmain, fun predicate => ?_⟩
  unfold parseParamOrSecret
  rw [hmain]



/-
  Adjacent-pair machinery: detecting and locating doubled delimiter
  characters, towards the normalization fixed-point analysis.
-/

/-- Whether two adjacent copies of the character occur. -/
def hasAdj (x : Char) : List Char → Bool
  | a :: b :: rest => if a = x ∧ b = x then true else hasAdj x (b :: rest)
  | _ => false

theorem hasAdj_nil {x : Char} : hasAdj x [] = false := rfl

theorem hasAdj_singleton {x a : Char} : hasAdj x [a] = false := rfl

theorem hasAdj_cons_cons {x a b : Char} {l : List Char} :
    hasAdj x (a :: b :: l) =
      if a = x ∧ b = x then true else hasAdj x (b :: l) := rfl

theorem hasAdj_iff_parts {x : Char} :
    ∀ {l : List Char}, hasAdj x l = true ↔ ∃ u v, l = u ++ x :: x :: v := by
  intro l
  induction l with
  | nil =>
    simp [hasAdj]
  | cons a rest ih =>
    cases rest with
    | nil =>
      simp only [hasAdj]
      constructor
      · intro h; exact absurd h (by simp)
      · rintro ⟨u, v, huv⟩
        cases u with
        | nil => simp at huv
        | cons y ys =>
          simp only [List.cons_append, List.cons.injEq] at huv
          exact absurd huv.2 (by simp)
    | cons b r2 =>
      rw [hasAdj_cons_cons]
      by_cases hab : a = x ∧ b = x
      · simp only [if_pos hab, true_iff]
        exact ⟨[], r2, by simp [hab.1, hab.2]⟩
      · rw [if_neg hab, ih]
        constructor
        · rintro ⟨u, v, huv⟩
          exact ⟨a :: u, v, by rw [List.cons_append, ← huv]⟩
        · rintro ⟨u, v, huv⟩
          cases u with
          | nil =>
            simp only [List.nil_append, List.cons.injEq] at huv
            exact absurd ⟨huv.1, huv.2.1⟩ hab
          | cons y ys =>
            simp only [List.cons_append, List.cons.injEq] at huv
            exact ⟨ys, v, huv.2⟩

/-- An infix inherits the absence of adjacent pairs. -/
theorem hasAdj_within {x : Char} {l₁ l₂ : List Char} (hinf : l₁ <:+: l₂)
    (h : hasAdj x l₂ = false) : hasAdj x l₁ = false := by
  by_contra hc
  have h1 : hasAdj x l₁ = true := Bool.not_eq_false _ |>.mp hc
  obtain ⟨u, v, huv⟩ := hasAdj_iff_parts.mp h1
  obtain ⟨s, t, hst⟩ := hinf
  have h2 : hasAdj x l₂ = true :=
    hasAdj_iff_parts.mpr ⟨s ++ u, v ++ t, by rw [← hst, huv]; simp⟩
  rw [h] at h2
  exact Bool.noConfusion h2

/-- Splitting an adjacent pair across an append: the pair lies in the left
part, in the right part, or straddles the boundary. -/
theorem hasAdj_append {x : Char} {a b : List Char}
    (ha : hasAdj x a = false) (hb : hasAdj x b = false)
    (hlast : a.getLast? ≠ some x ∨ b.head? ≠ some x) :
    hasAdj x (a ++ b) = false := by
  by_contra hc
  have h1 : hasAdj x (a ++ b) = true := Bool.not_eq_false _ |>.mp hc
  obtain ⟨u, v, huv⟩ := hasAdj_iff_parts.mp h1
  rcases List.append_eq_append_iff.mp huv.symm with ⟨w, hw1, hw2⟩ | ⟨w, hw1, hw2⟩
  · -- hw1 : a = u ++ w, hw2 : x :: x :: v = w ++ b
    cases w with
    | nil =>
      simp only [List.nil_append] at hw2
      have h2 : hasAdj x b = true := hasAdj_iff_parts.mpr ⟨[], v, hw2.symm⟩
      rw [hb] at h2
      exact Bool.noConfusion h2
    | cons y ys =>
      cases ys with
      | nil =>
        -- a = u ++ [y], x :: x :: v = y :: b, so y = x and b = x :: v
        simp only [List.cons_append, List.nil_append, List.cons.injEq] at hw2
        obtain ⟨hy, hb2⟩ := hw2
        rcases hlast with hl | hr
        · apply hl
          rw [hw1, List.getLast?_append_cons]
          simp [hy]
        · apply hr
          rw [← hb2]
          simp
      | cons z zs =>
        simp only [List.cons_append, List.cons.injEq] at hw2
        obtain ⟨hy, hz, _⟩ := hw2
        have h2 : hasAdj x a = true := by
          apply hasAdj_iff_parts.mpr
          refine ⟨u, zs, ?_⟩
          rw [hw1, ← hy, ← hz]
        rw [ha] at h2
        exact Bool.noConfusion h2
  · -- hw1 : u = a ++ w, hw2 : b = w ++ x :: x :: v
    have h2 : hasAdj x b = true := hasAdj_iff_parts.mpr ⟨w, v, hw2⟩
    rw [hb] at h2
    exact Bool.noConfusion h2

theorem hasAdj_cons_true_iff {x a : Char} {l : List Char} :
    hasAdj x (a :: l) = true ↔ (a = x ∧ l.head? = some x) ∨ hasAdj x l = true := by
  cases l with
  | nil => simp [hasAdj]
  | cons b rest =>
    rw [hasAdj_cons_cons]
    by_cases hab : a = x ∧ b = x
    · simp [hab.1, hab.2]
    · rw [if_neg hab]
      constructor
      · exact Or.inr
      · rintro (⟨h1, h2⟩ | h)
        · simp only [List.head?_cons, Option.some.injEq] at h2
          exact absurd ⟨h1, h2⟩ hab
        · exact h

theorem hasAdj_cons_of {x a : Char} {l : List Char} (h : hasAdj x l = true) :
    hasAdj x (a :: l) = true :=
  hasAdj_cons_true_iff.mpr (Or.inr h)

theorem hasAdj_cons_iff {x a : Char} {l : List Char} :
    hasAdj x (a :: l) = false ↔
      ¬(a = x ∧ l.head? = some x) ∧ hasAdj x l = false := by
  constructor
  · intro h
    refine ⟨?_, ?_⟩
    · intro hp
      have h2 := hasAdj_cons_true_iff.mpr (Or.inl hp)
      rw [h] at h2
      exact Bool.noConfusion h2
    · cases hl : hasAdj x l
      · rfl
      · have h2 := hasAdj_cons_of (a := a) hl
        rw [h] at h2
        exact Bool.noConfusion h2
  · intro ⟨h1, h2⟩
    cases hc : hasAdj x (a :: l)
    · rfl
    · rcases hasAdj_cons_true_iff.mp hc with hp | hl
      · exact absurd hp h1
      · rw [h2] at hl
        exact Bool.noConfusion hl

theorem getLast_pair {x : Char} {l : List Char} (h : l.getLast? = some x) :
    hasAdj x (l ++ [x]) = true := by
  have hne : l ≠ [] := by intro he; rw [he] at h; simp at h
  have hdecomp : l.dropLast ++ [l.getLast hne] = l :=
    List.dropLast_append_getLast hne
  have hx : l.getLast hne = x := by
    rw [List.getLast?_eq_getLast l hne] at h
    exact Option.some.inj h
  apply hasAdj_iff_parts.mpr
  refine ⟨l.dropLast, [], ?_⟩
  rw [← hdecomp, hx]
  simp

theorem noAdj_concat {x : Char} {l : List Char}
    (h : hasAdj x (l ++ [x]) = false) :
    hasAdj x l = false ∧ l.getLast? ≠ some x := by
  constructor
  · exact hasAdj_within ⟨[], [x], by simp⟩ h
  · intro hl
    rw [getLast_pair hl] at h
    exact Bool.noConfusion h

/-- The character a single input character contributes to the collapsed
output when it is emitted. -/
def spMap (c : Char) : Char :=
  if isRegexSpace c then ' ' else c

theorem getLast?_cons_ne_nil {c : Char} {L : List Char} (h : L ≠ []) :
    (c :: L).getLast? = L.getLast? := by
  obtain ⟨y, ys, rfl⟩ := List.exists_cons_of_ne_nil h
  rw [List.getLast?_cons_cons]

theorem collapse_false_ne_nil {l : List Char} (h : l ≠ []) :
    collapseAux false l ≠ [] := by
  cases l with
  | nil => exact absurd rfl h
  | cons c rest =>
    by_cases hc : isRegexSpace c
    · simp [collapseAux, hc]
    · simp [collapseAux, hc]

theorem collapse_head : ∀ l : List Char,
    (collapseAux false l).head? = l.head?.map spMap := by
  intro l
  cases l with
  | nil => rfl
  | cons c rest =>
    by_cases hc : isRegexSpace c
    · simp [collapseAux, hc, spMap]
    · simp [collapseAux, hc, spMap]

theorem collapse_getLast_nonspace : ∀ (l : List Char) (p : Bool) (c : Char),
    l.getLast? = some c → isRegexSpace c = false →
    (collapseAux p l).getLast? = some c := by
  intro l
  induction l with
  | nil => intro p c h _; simp at h
  | cons a rest ih =>
    intro p c h hc
    cases hrest : rest with
    | nil =>
      subst hrest
      simp at h
      subst h
      cases p <;> simp [collapseAux, hc]
    | cons b r2 =>
      rw [hrest] at h ih
      rw [List.getLast?_cons_cons] at h
      have hne : collapseAux (if isRegexSpace a then true else false)
          (b :: r2) ≠ [] := by
        by_cases ha : isRegexSpace a
        · rw [if_pos ha]
          intro hnil
          have hlast := congrArg List.getLast? hnil
          rw [ih true c h hc] at hlast
          simp at hlast
        · rw [if_neg ha]
          exact collapse_false_ne_nil (by simp)
      by_cases ha : isRegexSpace a
      · rw [if_pos ha] at hne
        show (collapseAux p (a :: b :: r2)).getLast? = some c
        by_cases hp : p
        · subst hp
          show (if isRegexSpace a then
              if true = true then collapseAux true (b :: r2)
              else ' ' :: collapseAux true (b :: r2)
            else a :: collapseAux false (b :: r2)).getLast? = some c
          rw [if_pos ha, if_pos rfl]
          exact ih true c h hc
        · have hp2 : p = false := Bool.eq_false_iff.mpr hp
          subst hp2
          show (if isRegexSpace a then
              if false = true then collapseAux true (b :: r2)
              else ' ' :: collapseAux true (b :: r2)
            else a :: collapseAux false (b :: r2)).getLast? = some c
          rw [if_pos ha, if_neg (by simp)]
          rw [getLast?_cons_ne_nil hne]
          exact ih true c h hc
      · rw [if_neg ha] at hne
        show (collapseAux p (a :: b :: r2)).getLast? = some c
        cases p
        · show (if isRegexSpace a then
              if false = true then collapseAux true (b :: r2)
              else ' ' :: collapseAux true (b :: r2)
            else a :: collapseAux false (b :: r2)).getLast? = some c
          rw [if_neg (by simp [ha])]
          rw [getLast?_cons_ne_nil hne]
          exact ih false c h hc
        · show (if isRegexSpace a then
              if true = true then collapseAux true (b :: r2)
              else ' ' :: collapseAux true (b :: r2)
            else a :: collapseAux false (b :: r2)).getLast? = some c
          rw [if_neg (by simp [ha])]
          rw [getLast?_cons_ne_nil hne]
          exact ih false c h hc

theorem collapse_getLast_ne_space : ∀ (l : List Char) (p : Bool) (x : Char),
    (collapseAux p l).getLast? = some x → x ≠ ' ' → l.getLast? = some x := by
  intro l
  induction l with
  | nil =>
    intro p x h _
    simp [collapseAux] at h
  | cons a rest ih =>
    intro p x h hx
    by_cases ha : isRegexSpace a
    · by_cases hp : p
      · subst hp
        rw [show collapseAux true (a :: rest) = collapseAux true rest by
          simp [collapseAux, ha]] at h
        have hr := ih true x h hx
        cases rest with
        | nil => simp at hr
        | cons b r2 => rw [List.getLast?_cons_cons]; exact hr
      · have hp2 : p = false := Bool.eq_false_iff.mpr hp
        subst hp2
        rw [show collapseAux false (a :: rest) = ' ' :: collapseAux true rest by
          simp [collapseAux, ha]] at h
        cases hnil : collapseAux true rest with
        | nil =>
          rw [hnil] at h
          simp at h
          exact absurd h.symm hx
        | cons y ys =>
          rw [hnil] at h
          rw [getLast?_cons_ne_nil (by simp)] at h
          rw [← hnil] at h
          have hr := ih true x h hx
          cases rest with
          | nil => simp at hr
          | cons b r2 => rw [List.getLast?_cons_cons]; exact hr
    · rw [show collapseAux p (a :: rest) = a :: collapseAux false rest by
        cases p <;> simp [collapseAux, ha]] at h
      cases hnil : collapseAux false rest with
      | nil =>
        have hrest : rest = [] := by
          by_contra hne
          exact collapse_false_ne_nil hne hnil
        subst hrest
        rw [hnil] at h
        simp at h
        simp [h]
      | cons y ys =>
        rw [hnil] at h
        rw [getLast?_cons_ne_nil (by simp)] at h
        rw [← hnil] at h
        have hr := ih false x h hx
        cases rest with
        | nil => simp at hr
        | cons b r2 => rw [List.getLast?_cons_cons]; exact hr

theorem collapse_idem : ∀ (l : List Char) (p : Bool),
    collapseAux p (collapseAux p l) = collapseAux p l := by
  intro l
  induction l with
  | nil => intro p; rfl
  | cons c rest ih =>
    intro p
    by_cases hc : isRegexSpace c
    · cases p
      · rw [show collapseAux false (c :: rest) = ' ' :: collapseAux true rest by
          simp [collapseAux, hc]]
        rw [show collapseAux false (' ' :: collapseAux true rest) =
            ' ' :: collapseAux true (collapseAux true rest) by
          simp [collapseAux, isRegexSpace]]
        rw [ih true]
      · rw [show collapseAux true (c :: rest) = collapseAux true rest by
          simp [collapseAux, hc]]
        exact ih true
    · rw [show collapseAux p (c :: rest) = c :: collapseAux false rest by
        cases p <;> simp [collapseAux, hc]]
      rw [show collapseAux p (c :: collapseAux false rest) =
          c :: collapseAux false (collapseAux false rest) by
        cases p <;> simp [collapseAux, hc]]
      rw [ih false]

theorem collapse_noAdj {x : Char} (hx : isRegexSpace x = false) :
    ∀ (l : List Char) (p : Bool),
    hasAdj x l = false → hasAdj x (collapseAux p l) = false := by
  intro l
  induction l with
  | nil => intro p _; cases p <;> rfl
  | cons c rest ih =>
    intro p h
    rw [hasAdj_cons_iff] at h
    by_cases hc : isRegexSpace c
    · cases p
      · rw [show collapseAux false (c :: rest) = ' ' :: collapseAux true rest by
          simp [collapseAux, hc]]
        rw [hasAdj_cons_iff]
        refine ⟨?_, ih true h.2⟩
        intro ⟨hsp, _⟩
        rw [← hsp] at hx
        simp [isRegexSpace] at hx
      · rw [show collapseAux true (c :: rest) = collapseAux true rest by
          simp [collapseAux, hc]]
        exact ih true h.2
    · rw [show collapseAux p (c :: rest) = c :: collapseAux false rest by
        cases p <;> simp [collapseAux, hc]]
      rw [hasAdj_cons_iff]
      refine ⟨?_, ih false h.2⟩
      intro ⟨hcx, hhd⟩
      rw [collapse_head] at hhd
      cases hr : rest.head? with
      | none => rw [hr] at hhd; simp at hhd
      | some d =>
        rw [hr] at hhd
        have hd : spMap d = x := by
          simp only [Option.map] at hhd
          exact Option.some.inj hhd
        have hdx : d = x := by
          unfold spMap at hd
          by_cases hds : isRegexSpace d
          · rw [if_pos hds] at hd
            rw [← hd] at hx
            simp [isRegexSpace] at hx
          · rw [if_neg hds] at hd
            exact hd
        exact h.1 ⟨hcx, by rw [hr, hdx]⟩

/-- First occurrence of an adjacent pair of the character: the part before
it and the part after it. -/
def splitPair (x : Char) : List Char → Option (List Char × List Char)
  | [] => none
  | a :: rest =>
    if a = x ∧ rest.head? = some x then some ([], rest.tail)
    else (splitPair x rest).map (fun p => (a :: p.1, p.2))

theorem splitPair_none_iff {x : Char} :
    ∀ {l : List Char}, splitPair x l = none ↔ hasAdj x l = false := by
  intro l
  induction l with
  | nil => simp [splitPair, hasAdj_nil]
  | cons a rest ih =>
    rw [hasAdj_cons_iff]
    unfold splitPair
    by_cases hc : a = x ∧ rest.head? = some x
    · rw [if_pos hc]
      simp [hc]
    · rw [if_neg hc]
      cases hs : splitPair x rest with
      | none =>
        have hr := ih.mp hs
        simp [hc, hr]
      | some p =>
        have hr : hasAdj x rest = true := by
          cases hadj : hasAdj x rest
          · have hn := ih.mpr hadj
            rw [hs] at hn
            exact Option.noConfusion hn
          · rfl
        simp [hr]

theorem splitPair_some {x : Char} :
    ∀ {l l1 r : List Char}, splitPair x l = some (l1, r) →
      l = l1 ++ x :: x :: r ∧ hasAdj x (l1 ++ [x]) = false := by
  intro l
  induction l with
  | nil => intro l1 r h; simp [splitPair] at h
  | cons a rest ih =>
    intro l1 r h
    unfold splitPair at h
    by_cases hc : a = x ∧ rest.head? = some x
    · rw [if_pos hc] at h
      simp only [Option.some.injEq, Prod.mk.injEq] at h
      obtain ⟨h1, h2⟩ := h
      subst h1
      cases rest with
      | nil => simp at hc
      | cons b r2 =>
        simp only [List.head?_cons, Option.some.injEq] at hc
        simp only [List.tail_cons] at h2
        subst h2
        refine ⟨by simp [hc.1, hc.2], by simp [hasAdj_singleton]⟩
    · rw [if_neg hc] at h
      cases hs : splitPair x rest with
      | none => rw [hs] at h; simp at h
      | some p =>
        rw [hs] at h
        obtain ⟨l1r, rr⟩ := p
        simp only [Option.map, Option.some.injEq] at h
        simp only [Prod.mk.injEq] at h
        obtain ⟨h1, h2⟩ := h
        subst h2
        have := ih hs
        cases l1 with
        | nil => simp at h1
        | cons a2 l1t =>
          simp only [List.cons.injEq] at h1
          obtain ⟨ha2, hl1t⟩ := h1
          subst ha2
          subst hl1t
          refine ⟨by rw [List.cons_append, this.1], ?_⟩
          rw [List.cons_append, hasAdj_cons_iff]
          refine ⟨?_, this.2⟩
          intro ⟨hax, hhd⟩
          apply hc
          refine ⟨hax, ?_⟩
          rw [this.1]
          cases l1r with
          | nil => simp
          | cons y ys =>
            simp only [List.cons_append, List.head?_cons] at hhd ⊢
            exact hhd

theorem splitPair_append {x : Char} :
    ∀ {l1 : List Char} (r : List Char), hasAdj x (l1 ++ [x]) = false →
      splitPair x (l1 ++ x :: x :: r) = some (l1, r) := by
  intro l1
  induction l1 with
  | nil =>
    intro r _
    show splitPair x (x :: x :: r) = some ([], r)
    unfold splitPair
    rw [if_pos ⟨rfl, rfl⟩]
    rfl
  | cons a l1t ih =>
    intro r h
    rw [List.cons_append] at h
    rw [hasAdj_cons_iff] at h
    show splitPair x (a :: (l1t ++ x :: x :: r)) = some (a :: l1t, r)
    unfold splitPair
    rw [if_neg ?hneg]
    case hneg =>
      intro ⟨hax, hhd⟩
      apply h.1
      refine ⟨hax, ?_⟩
      cases l1t with
      | nil => simp
      | cons y ys =>
        simp only [List.cons_append, List.head?_cons] at hhd ⊢
        exact hhd
    rw [ih r h.2]
    rfl


/-
  Shift lemmas: scanning a delimiter-free stretch only moves it into the
  buffer. The condition includes the first character after the stretch, so
  that no doubled delimiter straddles the boundary.
-/

theorem pcScan_false_shift : ∀ (l buf tl : List Char),
    hasAdj '{' (l ++ tl.take 1) = false →
    pcScan false buf (l ++ tl) = pcScan false (buf ++ l) tl := by
  intro l
  induction l with
  | nil => intro buf tl _; simp
  | cons c l2 ih =>
    intro buf tl h
    rw [List.cons_append] at h
    rw [hasAdj_cons_iff] at h
    rw [List.cons_append]
    rw [pcScan_false_cons buf c (l2 ++ tl) ?hcond]
    case hcond =>
      intro hc1 hc2
      apply h.1
      refine ⟨hc1, ?_⟩
      cases l2 with
      | nil =>
        simp only [List.nil_append] at hc2 ⊢
        cases tl with
        | nil => simp at hc2
        | cons y ys =>
          simp only [List.head?_cons] at hc2
          simp [List.take, hc2]
      | cons y ys =>
        simp only [List.cons_append, List.head?_cons] at hc2 ⊢
        exact hc2
    rw [ih (buf ++ [c]) tl h.2]
    rw [List.append_assoc]
    rfl

theorem pcScan_true_shift : ∀ (l buf tl : List Char),
    hasAdj '}' (l ++ tl.take 1) = false →
    pcScan true buf (l ++ tl) = pcScan true (buf ++ l) tl := by
  intro l
  induction l with
  | nil => intro buf tl _; simp
  | cons c l2 ih =>
    intro buf tl h
    rw [List.cons_append] at h
    rw [hasAdj_cons_iff] at h
    rw [List.cons_append]
    rw [pcScan_true_cons buf c (l2 ++ tl) ?hcond]
    case hcond =>
      intro hc1 hc2
      apply h.1
      refine ⟨hc1, ?_⟩
      cases l2 with
      | nil =>
        simp only [List.nil_append] at hc2 ⊢
        cases tl with
        | nil => simp at hc2
        | cons y ys =>
          simp only [List.head?_cons] at hc2
          simp [List.take, hc2]
      | cons y ys =>
        simp only [List.cons_append, List.head?_cons] at hc2 ⊢
        exact hc2
    rw [ih (buf ++ [c]) tl h.2]
    rw [List.append_assoc]
    rfl

theorem lexScan_false_shift : ∀ (l b tl : List Char),
    hasAdj '{' (l ++ tl.take 1) = false →
    lexScan false b (l ++ tl) = lexScan false b tl := by
  intro l
  induction l with
  | nil => intro b tl _; simp
  | cons c l2 ih =>
    intro b tl h
    rw [List.cons_append] at h
    rw [hasAdj_cons_iff] at h
    rw [List.cons_append]
    rw [lexScan_false_cons b c (l2 ++ tl) ?hcond]
    case hcond =>
      intro hc1 hc2
      apply h.1
      refine ⟨hc1, ?_⟩
      cases l2 with
      | nil =>
        simp only [List.nil_append] at hc2 ⊢
        cases tl with
        | nil => simp at hc2
        | cons y ys =>
          simp only [List.head?_cons] at hc2
          simp [List.take, hc2]
      | cons y ys =>
        simp only [List.cons_append, List.head?_cons] at hc2 ⊢
        exact hc2
    exact ih b tl h.2

theorem lexScan_true_shift : ∀ (l buf tl : List Char),
    hasAdj '}' (l ++ tl.take 1) = false →
    lexScan true buf (l ++ tl) = lexScan true (buf ++ l) tl := by
  intro l
  induction l with
  | nil => intro buf tl _; simp
  | cons c l2 ih =>
    intro buf tl h
    rw [List.cons_append] at h
    rw [hasAdj_cons_iff] at h
    rw [List.cons_append]
    rw [lexScan_true_cons buf c (l2 ++ tl) ?hcond]
    case hcond =>
      intro hc1 hc2
      apply h.1
      refine ⟨hc1, ?_⟩
      cases l2 with
      | nil =>
        simp only [List.nil_append] at hc2 ⊢
        cases tl with
        | nil => simp at hc2
        | cons y ys =>
          simp only [List.head?_cons] at hc2
          simp [List.take, hc2]
      | cons y ys =>
        simp only [List.cons_append, List.head?_cons] at hc2 ⊢
        exact hc2
    rw [ih (buf ++ [c]) tl h.2]
    rw [List.append_assoc]
    rfl

theorem hyScan_out_shift (vp : List ValuedParameter) : ∀ (l pend tl : List Char),
    hasAdj '{' (l ++ tl.take 1) = false →
    hyScan vp (.out pend) (l ++ tl) = hyScan vp (.out (pend ++ l)) tl := by
  intro l
  induction l with
  | nil => intro pend tl _; simp
  | cons c l2 ih =>
    intro pend tl h
    rw [List.cons_append] at h
    rw [hasAdj_cons_iff] at h
    rw [List.cons_append]
    rw [hyScan_out_cons vp pend c (l2 ++ tl) ?hcond]
    case hcond =>
      intro hc1 hc2
      apply h.1
      refine ⟨hc1, ?_⟩
      cases l2 with
      | nil =>
        simp only [List.nil_append] at hc2 ⊢
        cases tl with
        | nil => simp at hc2
        | cons y ys =>
          simp only [List.head?_cons] at hc2
          simp [List.take, hc2]
      | cons y ys =>
        simp only [List.cons_append, List.head?_cons] at hc2 ⊢
        exact hc2
    rw [ih (pend ++ [c]) tl h.2]
    rw [List.append_assoc]
    rfl

theorem hyScan_ins_shift (vp : List ValuedParameter) :
    ∀ (l pend content tl : List Char),
    hasAdj '}' (l ++ tl.take 1) = false →
    hyScan vp (.ins pend content) (l ++ tl) =
      hyScan vp (.ins pend (content ++ l)) tl := by
  intro l
  induction l with
  | nil => intro pend content tl _; simp
  | cons c l2 ih =>
    intro pend content tl h
    rw [List.cons_append] at h
    rw [hasAdj_cons_iff] at h
    rw [List.cons_append]
    rw [hyScan_ins_cons vp pend content c (l2 ++ tl) ?hcond]
    case hcond =>
      intro hc1 hc2
      apply h.1
      refine ⟨hc1, ?_⟩
      cases l2 with
      | nil =>
        simp only [List.nil_append] at hc2 ⊢
        cases tl with
        | nil => simp at hc2
        | cons y ys =>
          simp only [List.head?_cons] at hc2
          simp [List.take, hc2]
      | cons y ys =>
        simp only [List.cons_append, List.head?_cons] at hc2 ⊢
        exact hc2
    rw [ih pend (content ++ [c]) tl h.2]
    rw [List.append_assoc]
    rfl

/-
  Scanner evaluation through the first-pair splitter.
-/

theorem splitPair_pair (x : Char) (r : List Char) :
    splitPair x (x :: x :: r) = some ([], r) := by
  unfold splitPair
  rw [if_pos ⟨rfl, rfl⟩]
  rfl

theorem pcScan_false_eq_of_split_some {cs l r : List Char}
    (h : splitPair '{' cs = some (l, r)) (buf : List Char) :
    pcScan false buf cs =
      collapseSpaces (buf ++ l) ++ '{' :: '{' :: pcScan true [] r := by
  obtain ⟨hcs, hadj⟩ := splitPair_some h
  subst hcs
  rw [pcScan_false_shift l buf ('{' :: '{' :: r) hadj]
  exact pcScan_open _ _

theorem pcScan_false_eq_of_split_none {cs : List Char}
    (h : splitPair '{' cs = none) (buf : List Char) :
    pcScan false buf cs = collapseSpaces (buf ++ cs) := by
  have hadj := splitPair_none_iff.mp h
  have hs := pcScan_false_shift cs buf [] (by simpa using hadj)
  rw [List.append_nil] at hs
  rw [hs]
  exact pcScan_false_nil _

theorem pcScan_true_eq_of_split_some {cs c r : List Char}
    (h : splitPair '}' cs = some (c, r)) (buf : List Char) :
    pcScan true buf cs =
      cleanString (buf ++ c) ++ '}' :: '}' :: pcScan false [] r := by
  obtain ⟨hcs, hadj⟩ := splitPair_some h
  subst hcs
  rw [pcScan_true_shift c buf ('}' :: '}' :: r) hadj]
  exact pcScan_close _ _

theorem pcScan_true_eq_of_split_none {cs : List Char}
    (h : splitPair '}' cs = none) (buf : List Char) :
    pcScan true buf cs = (match (buf ++ cs).getLast? with
      | some c => collapseSpaces [c]
      | none => []) := by
  have hadj := splitPair_none_iff.mp h
  have hs := pcScan_true_shift cs buf [] (by simpa using hadj)
  rw [List.append_nil] at hs
  rw [hs]
  exact pcScan_true_nil _

theorem lexScan_false_eq_of_split_some {cs l r : List Char}
    (h : splitPair '{' cs = some (l, r)) (b : List Char) :
    lexScan false b cs = lexScan true [] r := by
  obtain ⟨hcs, hadj⟩ := splitPair_some h
  subst hcs
  rw [lexScan_false_shift l b ('{' :: '{' :: r) hadj]
  exact lexScan_open _ _

theorem lexScan_false_eq_of_split_none {cs : List Char}
    (h : splitPair '{' cs = none) (b : List Char) :
    lexScan false b cs = [] := by
  have hadj := splitPair_none_iff.mp h
  have hs := lexScan_false_shift cs b [] (by simpa using hadj)
  rw [List.append_nil] at hs
  rw [hs]
  exact lexScan_nil _ _

theorem lexScan_true_eq_of_split_some {cs c r : List Char}
    (h : splitPair '}' cs = some (c, r)) (buf : List Char) :
    lexScan true buf cs = cleanString (buf ++ c) :: lexScan false [] r := by
  obtain ⟨hcs, hadj⟩ := splitPair_some h
  subst hcs
  rw [lexScan_true_shift c buf ('}' :: '}' :: r) hadj]
  exact lexScan_close _ _

theorem lexScan_true_eq_of_split_none {cs : List Char}
    (h : splitPair '}' cs = none) (buf : List Char) :
    lexScan true buf cs = [] := by
  have hadj := splitPair_none_iff.mp h
  have hs := lexScan_true_shift cs buf [] (by simpa using hadj)
  rw [List.append_nil] at hs
  rw [hs]
  exact lexScan_nil _ _

theorem hyScan_out_eq_of_split_some (vp : List ValuedParameter) {cs l r : List Char}
    (h : splitPair '{' cs = some (l, r)) (pend : List Char) :
    hyScan vp (.out pend) cs = hyScan vp (.ins (pend ++ l) []) r := by
  obtain ⟨hcs, hadj⟩ := splitPair_some h
  subst hcs
  rw [hyScan_out_shift vp l pend ('{' :: '{' :: r) hadj]
  exact hyScan_open _ _ _

theorem hyScan_out_eq_of_split_none (vp : List ValuedParameter) {cs : List Char}
    (h : splitPair '{' cs = none) (pend : List Char) :
    hyScan vp (.out pend) cs = (pend ++ cs, []) := by
  have hadj := splitPair_none_iff.mp h
  have hs := hyScan_out_shift vp cs pend [] (by simpa using hadj)
  rw [List.append_nil] at hs
  rw [hs]
  exact hyScan_out_nil _ _

theorem hyScan_ins_eq_of_split_some (vp : List ValuedParameter) {cs c r : List Char}
    (h : splitPair '}' cs = some (c, r)) (pend content : List Char) :
    hyScan vp (.ins pend content) cs =
      hyScan vp (.ins pend (content ++ c)) ('}' :: '}' :: r) := by
  obtain ⟨hcs, hadj⟩ := splitPair_some h
  subst hcs
  exact hyScan_ins_shift vp c pend content ('}' :: '}' :: r) hadj

theorem hyScan_ins_eq_of_split_none (vp : List ValuedParameter) {cs : List Char}
    (h : splitPair '}' cs = none) (pend content : List Char) :
    hyScan vp (.ins pend content) cs =
      (pend ++ '%' :: 's' :: pend ++ '{' :: '{' :: (content ++ cs), []) := by
  have hadj := splitPair_none_iff.mp h
  have hs := hyScan_ins_shift vp cs pend content [] (by simpa using hadj)
  rw [List.append_nil] at hs
  rw [hs]
  exact hyScan_ins_nil _ _ _

/-
  Normalization facts: trimming is an infix, cleaning is idempotent and
  creates no doubled delimiter, collapsing fixes its own output.
-/

theorem goTrimSpace_within (l : List Char) : goTrimSpace l <:+: l := by
  unfold goTrimSpace
  have h1 : l.dropWhile isGoSpace <:+ l := List.dropWhile_suffix _
  have h2 : (l.dropWhile isGoSpace).reverse.dropWhile isGoSpace <:+
      (l.dropWhile isGoSpace).reverse := List.dropWhile_suffix _
  have h3 : ((l.dropWhile isGoSpace).reverse.dropWhile isGoSpace).reverse <+:
      l.dropWhile isGoSpace := by
    have h4 := List.reverse_prefix.mpr h2
    rw [List.reverse_reverse] at h4
    exact h4
  exact h3.isInfix.trans h1.isInfix

theorem isGoSpace_of_isRegexSpace {c : Char} (h : isRegexSpace c = true) :
    isGoSpace c = true := by
  have h2 : c = '\t' ∨ c = '\n' ∨ c = '\x0C' ∨ c = '\r' ∨ c = ' ' := by
    simpa [isRegexSpace] using h
  rcases h2 with rfl | rfl | rfl | rfl | rfl <;> decide

theorem isRegexSpace_eq_false {c : Char} (h : isGoSpace c = false) :
    isRegexSpace c = false := by
  cases hr : isRegexSpace c
  · rfl
  · rw [isGoSpace_of_isRegexSpace hr] at h
    exact Bool.noConfusion h

theorem spMap_nonspace {c : Char} (h : isGoSpace c = false) : spMap c = c := by
  unfold spMap
  rw [if_neg]
  intro hr
  rw [isGoSpace_of_isRegexSpace hr] at h
  exact Bool.noConfusion h

theorem spMap_idem (c : Char) : spMap (spMap c) = spMap c := by
  by_cases h : isRegexSpace c
  · simp [spMap, h]
  · simp [spMap, h]

theorem collapse_singleton (c : Char) : collapseAux false [c] = [spMap c] := by
  unfold collapseAux spMap
  by_cases h : isRegexSpace c <;> simp [h, collapseAux]

theorem splitFirstPipe_cons_ne {c : Char} (rest : List Char) (hc : c ≠ '|') :
    splitFirstPipe (c :: rest) =
      (c :: (splitFirstPipe rest).1, (splitFirstPipe rest).2) := by
  simp [splitFirstPipe, hc]

theorem splitFirstPipe_recomp : ∀ l : List Char,
    l = (splitFirstPipe l).1 ++
      (match (splitFirstPipe l).2 with | none => [] | some t => '|' :: t) := by
  intro l
  induction l with
  | nil => rfl
  | cons c rest ih =>
    by_cases hc : c = '|'
    · subst hc
      simp [splitFirstPipe]
    · rw [splitFirstPipe_cons_ne rest hc]
      simp only [List.cons_append]
      exact congrArg (List.cons c) ih

theorem cleanString_idem (r : List Char) :
    cleanString (cleanString r) = cleanString r := by
  cases hs : splitFirstPipe r with
  | mk h t =>
    have hnp : '|' ∉ goTrimSpace h := by
      have h0 := no_pipe_goTrim_fst r
      rw [hs] at h0
      exact h0
    cases t with
    | none =>
      have hc : cleanString r = goTrimSpace h := by
        unfold cleanString
        rw [hs]
      rw [hc]
      unfold cleanString
      rw [splitFirstPipe_of_no_pipe hnp]
      show goTrimSpace (goTrimSpace h) = goTrimSpace h
      exact goTrimSpace_idem h
    | some tl =>
      have hc : cleanString r = goTrimSpace h ++ '|' :: goTrimSpace tl := by
        unfold cleanString
        rw [hs]
      rw [hc]
      unfold cleanString
      rw [splitFirstPipe_append_pipe (goTrimSpace tl) hnp]
      show goTrimSpace (goTrimSpace h) ++ '|' :: goTrimSpace (goTrimSpace tl) =
        goTrimSpace h ++ '|' :: goTrimSpace tl
      rw [goTrimSpace_idem, goTrimSpace_idem]

theorem cleanString_noAdj {x : Char} (hx : x ≠ '|') {r : List Char}
    (h : hasAdj x r = false) : hasAdj x (cleanString r) = false := by
  have hrec := splitFirstPipe_recomp r
  cases hs : splitFirstPipe r with
  | mk hd t =>
    rw [hs] at hrec
    cases t with
    | none =>
      simp only [List.append_nil] at hrec
      have hc : cleanString r = goTrimSpace hd := by
        unfold cleanString
        rw [hs]
      rw [hc]
      apply hasAdj_within (goTrimSpace_within hd)
      rw [← hrec]
      exact h
    | some tl =>
      have hc : cleanString r = goTrimSpace hd ++ '|' :: goTrimSpace tl := by
        unfold cleanString
        rw [hs]
      rw [hc]
      have hinf1 : hd <:+: r := ⟨[], '|' :: tl, by
        rw [List.nil_append]
        exact hrec.symm⟩
      have hinf2 : tl <:+: r := ⟨hd ++ ['|'], [], by
        rw [List.append_nil, List.append_assoc]
        exact hrec.symm⟩
      have hhd : hasAdj x (goTrimSpace hd) = false :=
        hasAdj_within ((goTrimSpace_within hd).trans hinf1) h
      have htl : hasAdj x (goTrimSpace tl) = false :=
        hasAdj_within ((goTrimSpace_within tl).trans hinf2) h
      have hpipe : hasAdj x ('|' :: goTrimSpace tl) = false := by
        rw [hasAdj_cons_iff]
        exact ⟨fun hp => hx hp.1.symm, htl⟩
      refine hasAdj_append hhd hpipe (Or.inr ?_)
      intro he
      simp only [List.head?_cons, Option.some.injEq] at he
      exact hx he.symm

/-
  Chunk decomposition of a template: alternating literal chunks and bracket
  spans, optionally ending in an unterminated open. The output of pcScan is
  always the rendering of a well-formed chunk list, and on well-formed chunk
  lists whose spans do not end in a closing brace the scanner is the
  identity.
-/

inductive Chunks where
  | last : List Char → Chunks
  | tail : List Char → Option Char → Chunks
  | more : List Char → List Char → Chunks → Chunks

def renderChunks : Chunks → List Char
  | .last l => l
  | .tail l c => l ++ '{' :: '{' :: c.toList
  | .more l c rest => l ++ '{' :: '{' :: (c ++ '}' :: '}' :: renderChunks rest)

def chunkSpans : Chunks → List (List Char)
  | .last _ => []
  | .tail _ _ => []
  | .more _ c rest => c :: chunkSpans rest

/-- Well-formedness of a chunk decomposition as produced by the normalizer:
literal chunks are collapse-fixed and contain no doubled open bracket (nor
end in an open bracket when a span follows); span contents are clean-fixed
and contain no doubled closing bracket; a surviving tail character is
collapse-fixed. -/
def ChunksWF : Chunks → Prop
  | .last l => collapseAux false l = l ∧ hasAdj '{' l = false
  | .tail l c => collapseAux false l = l ∧ hasAdj '{' (l ++ ['{']) = false ∧
      (∀ d, c = some d → spMap d = d)
  | .more l c rest => collapseAux false l = l ∧ hasAdj '{' (l ++ ['{']) = false ∧
      cleanString c = c ∧ hasAdj '}' c = false ∧ ChunksWF rest

/-- On a well-formed rendering whose span contents do not end in a closing
brace, the ParseCommand scanner is the identity. -/
theorem pcScan_renderChunks : ∀ ch : Chunks, ChunksWF ch →
    (∀ c ∈ chunkSpans ch, c.getLast? ≠ some '}') →
    pcScan false [] (renderChunks ch) = renderChunks ch := by
  intro ch
  induction ch with
  | last l =>
    intro hwf _
    show pcScan false [] l = l
    rw [pcScan_false_eq_of_split_none (splitPair_none_iff.mpr hwf.2) []]
    rw [List.nil_append]
    exact hwf.1
  | tail l copt =>
    intro hwf _
    obtain ⟨hidem, hadj, hc⟩ := hwf
    show pcScan false [] (l ++ '{' :: '{' :: copt.toList) =
      l ++ '{' :: '{' :: copt.toList
    rw [pcScan_false_eq_of_split_some (splitPair_append copt.toList hadj) []]
    rw [List.nil_append]
    unfold collapseSpaces
    rw [hidem]
    cases copt with
    | none => rfl
    | some d =>
      show l ++ '{' :: '{' :: pcScan true [] [d] = l ++ '{' :: '{' :: [d]
      have hsplit : splitPair '}' [d] = none :=
        splitPair_none_iff.mpr hasAdj_singleton
      rw [pcScan_true_eq_of_split_none hsplit []]
      have hm : (match ([] ++ [d] : List Char).getLast? with
          | some c => collapseSpaces [c]
          | none => ([] : List Char)) = [d] := by
        show collapseSpaces [d] = [d]
        unfold collapseSpaces
        rw [collapse_singleton, hc d rfl]
      rw [hm]
  | more l c rest ih =>
    intro hwf hsp
    obtain ⟨hidem, hadj, hclean, hcadj, hwfrest⟩ := hwf
    have hcl : c.getLast? ≠ some '}' := (hsp c (by simp [chunkSpans])).imp id
    have hcpair : hasAdj '}' (c ++ ['}']) = false := by
      refine hasAdj_append hcadj hasAdj_singleton (Or.inl ?_)
      exact hsp c (by simp [chunkSpans])
    show pcScan false []
        (l ++ '{' :: '{' :: (c ++ '}' :: '}' :: renderChunks rest)) =
      l ++ '{' :: '{' :: (c ++ '}' :: '}' :: renderChunks rest)
    rw [pcScan_false_eq_of_split_some
      (splitPair_append (c ++ '}' :: '}' :: renderChunks rest) hadj) []]
    rw [List.nil_append]
    unfold collapseSpaces
    rw [hidem]
    rw [pcScan_true_eq_of_split_some (splitPair_append (renderChunks rest) hcpair) []]
    rw [List.nil_append, hclean]
    rw [ih hwfrest (fun x hx => hsp x (by simp [chunkSpans, hx]))]

theorem collapse_lit_wf {l : List Char} (h : hasAdj '{' (l ++ ['{']) = false) :
    hasAdj '{' (collapseAux false l ++ ['{']) = false := by
  obtain ⟨hl, hlast⟩ := noAdj_concat h
  refine hasAdj_append (collapse_noAdj (by decide) l false hl) hasAdj_singleton
    (Or.inl ?_)
  intro hcl
  exact hlast (collapse_getLast_ne_space l false '{' hcl (by decide))

theorem getLast?_append_cons_cons (A : List Char) (a b : Char) (B : List Char) :
    (A ++ a :: b :: B).getLast? = (b :: B).getLast? := by
  rw [List.getLast?_append_of_ne_nil A (by simp)]
  exact getLast?_cons_ne_nil (by simp)

theorem head_chunk_fact {l X R cs : List Char} (hcs : cs = l ++ '{' :: '{' :: R)
    (hh : ∀ c, cs.head? = some c → isGoSpace c = false) :
    ∀ d, (collapseSpaces l ++ '{' :: '{' :: X).head? = some d →
      isGoSpace d = false := by
  intro d hd
  cases l with
  | nil =>
    simp only [collapseSpaces, collapseAux, List.nil_append, List.head?_cons,
      Option.some.injEq] at hd
    rw [← hd]
    decide
  | cons a l2 =>
    have ha : isGoSpace a = false := hh a (by rw [hcs]; rfl)
    have hhead : (collapseAux false (a :: l2)).head? = some (spMap a) := by
      rw [collapse_head]
      rfl
    cases hcl : collapseAux false (a :: l2) with
    | nil =>
      rw [hcl] at hhead
      exact Option.noConfusion hhead
    | cons e es =>
      rw [hcl] at hhead
      unfold collapseSpaces at hd
      rw [hcl] at hd
      simp only [List.head?_cons, Option.some.injEq] at hhead
      simp only [List.cons_append, List.head?_cons, Option.some.injEq] at hd
      rw [← hd, hhead, spMap_nonspace ha]
      exact ha

/-- The output of the ParseCommand scanner on any input is the rendering of
a well-formed chunk decomposition whose spans are the lexer's cleaned span
contents; the rendering keeps non-whitespace first and last characters
non-whitespace. -/
theorem pcScan_chunks : ∀ (n : Nat) (cs : List Char), cs.length ≤ n →
    ∃ ch : Chunks,
      pcScan false [] cs = renderChunks ch ∧
      ChunksWF ch ∧
      chunkSpans ch = spanContents cs ∧
      ((∀ c, cs.head? = some c → isGoSpace c = false) →
        ∀ d, (renderChunks ch).head? = some d → isGoSpace d = false) ∧
      ((∀ c, cs.getLast? = some c → isGoSpace c = false) →
        ∀ d, (renderChunks ch).getLast? = some d → isGoSpace d = false) := by
  intro n
  induction n with
  | zero =>
    intro cs hcs
    have hnil : cs = [] := List.length_eq_zero.mp (Nat.le_zero.mp hcs)
    subst hnil
    refine ⟨.last [], rfl, ⟨rfl, rfl⟩, rfl, ?_, ?_⟩
    · intro _ d hd
      simp [renderChunks] at hd
    · intro _ d hd
      simp [renderChunks] at hd
  | succ n ih =>
    intro cs hcs
    cases hsplit : splitPair '{' cs with
    | none =>
      refine ⟨.last (collapseSpaces cs), ?_, ?_, ?_, ?_, ?_⟩
      · rw [pcScan_false_eq_of_split_none hsplit []]
        rw [List.nil_append]
        rfl
      · exact ⟨collapse_idem cs false,
          collapse_noAdj (by decide) cs false (splitPair_none_iff.mp hsplit)⟩
      · show ([] : List (List Char)) = spanContents cs
        unfold spanContents
        rw [lexScan_false_eq_of_split_none hsplit []]
      · intro hh d hd
        show isGoSpace d = false
        cases cs with
        | nil => simp [renderChunks, collapseSpaces, collapseAux] at hd
        | cons a as =>
          have ha : isGoSpace a = false := hh a rfl
          have hhead : (collapseAux false (a :: as)).head? = some (spMap a) := by
            rw [collapse_head]
            rfl
          have hd2 : (collapseAux false (a :: as)).head? = some d := hd
          rw [hhead] at hd2
          have hda : d = spMap a := (Option.some.inj hd2).symm
          rw [hda, spMap_nonspace ha]
          exact ha
      · intro hl d hd
        show isGoSpace d = false
        cases cs with
        | nil => simp [renderChunks, collapseSpaces, collapseAux] at hd
        | cons a as =>
          have hg : (a :: as).getLast? = some ((a :: as).getLast (by simp)) :=
            List.getLast?_eq_getLast _ _
          have hc0 : isGoSpace ((a :: as).getLast (by simp)) = false :=
            hl _ hg
          have hcl := collapse_getLast_nonspace (a :: as) false _ hg
            (isRegexSpace_eq_false hc0)
          have hd2 : (collapseAux false (a :: as)).getLast? = some d := hd
          rw [hcl] at hd2
          rw [← Option.some.inj hd2]
          exact hc0
    | some p =>
      obtain ⟨l, r⟩ := p
      obtain ⟨hcs_eq, hadjl⟩ := splitPair_some hsplit
      cases hsplit2 : splitPair '}' r with
      | none =>
        refine ⟨.tail (collapseSpaces l) (r.getLast?.map spMap), ?_, ?_, ?_, ?_, ?_⟩
        · rw [pcScan_false_eq_of_split_some hsplit [], List.nil_append]
          have hm : pcScan true [] r = (r.getLast?.map spMap).toList := by
            rw [pcScan_true_eq_of_split_none hsplit2 []]
            rw [List.nil_append]
            cases hg : r.getLast? with
            | none => rfl
            | some c =>
              show collapseSpaces [c] = [spMap c]
              exact collapse_singleton c
          rw [hm]
          rfl
        · refine ⟨collapse_idem l false, collapse_lit_wf hadjl, ?_⟩
          intro d hd
          cases hg : r.getLast? with
          | none =>
            rw [hg] at hd
            exact Option.noConfusion hd
          | some c =>
            rw [hg] at hd
            simp only [Option.map] at hd
            rw [← Option.some.inj hd]
            exact spMap_idem c
        · show ([] : List (List Char)) = spanContents cs
          unfold spanContents
          rw [lexScan_false_eq_of_split_some hsplit []]
          rw [lexScan_true_eq_of_split_none hsplit2 []]
        · intro hh
          exact head_chunk_fact hcs_eq hh
        · intro hl d hd
          show isGoSpace d = false
          cases hg : r.getLast? with
          | none =>
            have hd2 : (collapseSpaces l ++ '{' :: '{' :: ([] : List Char)).getLast?
                = some d := by
              have : (r.getLast?.map spMap).toList = [] := by rw [hg]; rfl
              rw [← this]
              exact hd
            rw [getLast?_append_cons_cons _ '{' '{' []] at hd2
            simp only [List.getLast?_singleton, Option.some.injEq] at hd2
            rw [← hd2]
            decide
          | some c =>
            have hrne : r ≠ [] := by
              intro h0
              rw [h0] at hg
              exact Option.noConfusion hg
            have hcs_last : cs.getLast? = some c := by
              rw [hcs_eq, getLast?_append_cons_cons l '{' '{' r,
                getLast?_cons_ne_nil hrne]
              exact hg
            have hc : isGoSpace c = false := hl c hcs_last
            have hd2 : (collapseSpaces l ++ '{' :: '{' :: [spMap c]).getLast?
                = some d := by
              have : (r.getLast?.map spMap).toList = [spMap c] := by rw [hg]; rfl
              rw [← this]
              exact hd
            rw [getLast?_append_cons_cons _ '{' '{' [spMap c]] at hd2
            rw [getLast?_cons_ne_nil (by simp)] at hd2
            simp only [List.getLast?_singleton, Option.some.injEq] at hd2
            rw [← hd2, spMap_nonspace hc]
            exact hc
      | some q =>
        obtain ⟨craw, r2⟩ := q
        obtain ⟨hr_eq, hadjc⟩ := splitPair_some hsplit2
        have hlen : r2.length ≤ n := by
          have h1 := congrArg List.length hcs_eq
          have h2 := congrArg List.length hr_eq
          simp only [List.length_append, List.length_cons] at h1 h2
          omega
        obtain ⟨ch2, hrend2, hwf2, hspans2, hhead2, hlast2⟩ := ih r2 hlen
        have hcadjclean : hasAdj '}' (cleanString craw) = false :=
          cleanString_noAdj (by decide) (noAdj_concat hadjc).1
        refine ⟨.more (collapseSpaces l) (cleanString craw) ch2, ?_, ?_, ?_, ?_, ?_⟩
        · rw [pcScan_false_eq_of_split_some hsplit [], List.nil_append]
          rw [pcScan_true_eq_of_split_some hsplit2 [], List.nil_append]
          rw [hrend2]
          rfl
        · exact ⟨collapse_idem l false, collapse_lit_wf hadjl,
            cleanString_idem craw, hcadjclean, hwf2⟩
        · show cleanString craw :: chunkSpans ch2 = spanContents cs
          unfold spanContents
          rw [lexScan_false_eq_of_split_some hsplit []]
          rw [lexScan_true_eq_of_split_some hsplit2 []]
          rw [List.nil_append, hspans2]
          rfl
        · intro hh
          exact head_chunk_fact hcs_eq hh
        · intro hl d hd
          show isGoSpace d = false
          have hr2last : ∀ c, r2.getLast? = some c → isGoSpace c = false := by
            intro c hc
            apply hl c
            have hr2ne : r2 ≠ [] := by
              intro h0
              rw [h0] at hc
              exact Option.noConfusion hc
            rw [hcs_eq, hr_eq, getLast?_append_cons_cons l '{' '{' _]
            rw [getLast?_cons_ne_nil (by simp)]
            rw [getLast?_append_cons_cons craw '}' '}' r2]
            rw [getLast?_cons_ne_nil hr2ne]
            exact hc
          have hd2 : (collapseSpaces l ++ '{' :: '{' ::
              (cleanString craw ++ '}' :: '}' :: renderChunks ch2)).getLast?
              = some d := hd
          rw [getLast?_append_cons_cons _ '{' '{' _] at hd2
          rw [getLast?_cons_ne_nil (by simp)] at hd2
          rw [getLast?_append_cons_cons (cleanString craw) '}' '}' _] at hd2
          cases hr2 : renderChunks ch2 with
          | nil =>
            rw [hr2] at hd2
            simp only [List.getLast?_singleton, Option.some.injEq] at hd2
            rw [← hd2]
            decide
          | cons y ys =>
            rw [hr2] at hd2
            rw [getLast?_cons_ne_nil (by simp)] at hd2
            rw [← hr2] at hd2
            exact hlast2 hr2last d hd2

/-- Counterexample to claim C3 as stated: cleaning the span of
`{{ a } }}` trims its content to `a }`, whose trailing closing brace
merges with the close delimiter on the second parse, which then closes the
span one character early and re-trims, so normalization moves the string
again. -/
theorem parseCommand_not_idempotent :
    ParseCommand (ParseCommand "\x7b\x7b a \x7d \x7d\x7d") ≠ ParseCommand "\x7b\x7b a \x7d \x7d\x7d" := by
  decide

/-- Claim C3 (amended): ParseCommand is idempotent on every input none of
whose cleaned span contents ends in a closing brace; in general a span
whose cleaned content ends in `}` (its raw content had whitespace between
that brace and the close delimiter) shifts the close boundary on re-parse,
and idempotence fails. -/
theorem parseCommand_idempotent (t : String)
    (h : ∀ c ∈ spanContents (goTrimSpace t.data), c.getLast? ≠ some '}') :
    ParseCommand (ParseCommand t) = ParseCommand t := by
  obtain ⟨ch, hrend, hwf, hspans, hhead, hlast⟩ :=
    pcScan_chunks (goTrimSpace t.data).length (goTrimSpace t.data) le_rfl
  have hsp : ∀ c ∈ chunkSpans ch, c.getLast? ≠ some '}' := by
    intro c hc
    apply h c
    rw [← hspans]
    exact hc
  have hfix : goTrimSpace (renderChunks ch) = renderChunks ch :=
    goTrimSpace_noop
      (hhead (fun c0 hc0 => goTrimSpace_head hc0))
      (hlast (fun c0 hc0 => goTrimSpace_last hc0))
  have hid : pcScan false [] (renderChunks ch) = renderChunks ch :=
    pcScan_renderChunks ch hwf hsp
  unfold ParseCommand
  rw [hrend]
  show (⟨pcScan false [] (goTrimSpace (renderChunks ch))⟩ : String) =
    ⟨renderChunks ch⟩
  rw [hfix, hid]

/-- Witness for the amended C3 theorem at a concrete input. -/
theorem parseCommand_idempotent_witness :
    (∀ c ∈ spanContents (goTrimSpace ("run \x7b\x7b job | name \x7d\x7d now" : String).data),
      c.getLast? ≠ some '}') ∧
    ParseCommand (ParseCommand "run \x7b\x7b job | name \x7d\x7d now") =
      ParseCommand "run \x7b\x7b job | name \x7d\x7d now" :=
  ⟨by decide, parseCommand_idempotent "run \x7b\x7b job | name \x7d\x7d now" (by decide)⟩

/-
  Hydration over chunk renderings: with no values, the safe hydrator turns a
  well-formed rendering into a format string of literal runs and
  percent-s placeholders whose arguments re-render each span, and Sprintf
  reassembles exactly the rendering when the literal runs carry no percent.
-/

def chunksNoTail : Chunks → Prop
  | .last _ => True
  | .tail _ _ => False
  | .more _ _ rest => chunksNoTail rest

def chunksNoPercent : Chunks → Prop
  | .last l => '%' ∉ l
  | .tail l _ => '%' ∉ l
  | .more l _ rest => '%' ∉ l ∧ chunksNoPercent rest

def hyFmtChunks : Chunks → List Char
  | .last l => l
  | .tail l _ => l
  | .more l _ rest => l ++ '%' :: 's' :: hyFmtChunks rest

def hyArgsChunks : Chunks → List String
  | .last _ => []
  | .tail _ _ => []
  | .more _ c rest =>
    (⟨'{' :: '{' :: c ++ '}' :: '}' :: []⟩ : String) :: hyArgsChunks rest

theorem goSprintf_cons_ne {c : Char} (hc : c ≠ '%') (rest : List Char)
    (args : List String) :
    goSprintf (c :: rest) args = c :: goSprintf rest args := by
  cases rest with
  | nil => cases args <;> simp [goSprintf, hc]
  | cons y ys => cases args <;> simp [goSprintf, hc]

theorem goSprintf_lit : ∀ (l : List Char), '%' ∉ l → ∀ (fmt : List Char)
    (args : List String),
    goSprintf (l ++ fmt) args = l ++ goSprintf fmt args := by
  intro l
  induction l with
  | nil => intro _ fmt args; rfl
  | cons c l2 ih =>
    intro h fmt args
    have hc : c ≠ '%' := fun he => h (by simp [he])
    rw [List.cons_append, goSprintf_cons_ne hc _ _,
      ih (fun hm => h (List.mem_cons_of_mem c hm)) fmt args]
    rfl

theorem goSprintf_placeholder (rest : List Char) (a : String)
    (args : List String) :
    goSprintf ('%' :: 's' :: rest) (a :: args) = a.data ++ goSprintf rest args :=
  rfl

/-- With no values, scanning a well-formed rendering without an unterminated
open produces the chunk format string and one re-rendered span per argument. -/
theorem hyScan_renderChunks : ∀ ch : Chunks, ChunksWF ch → chunksNoTail ch →
    (∀ c ∈ chunkSpans ch, c.getLast? ≠ some '}') →
    (∀ c ∈ chunkSpans ch, parseName c ≠ []) →
    ∀ pend, hyScan [] (.out pend) (renderChunks ch) =
      (pend ++ hyFmtChunks ch, hyArgsChunks ch) := by
  intro ch
  induction ch with
  | last l =>
    intro hwf _ _ _ pend
    exact hyScan_out_eq_of_split_none [] (splitPair_none_iff.mpr hwf.2) pend
  | tail l copt =>
    intro _ hnt
    exact absurd hnt (by simp [chunksNoTail])
  | more l c rest ih =>
    intro hwf hnt hcl hnm pend
    obtain ⟨hidem, hadj, hclean, hcadj, hwfrest⟩ := hwf
    have hcpair : hasAdj '}' (c ++ ['}']) = false :=
      hasAdj_append hcadj hasAdj_singleton (Or.inl (hcl c (by simp [chunkSpans])))
    show hyScan [] (.out pend)
        (l ++ '{' :: '{' :: (c ++ '}' :: '}' :: renderChunks rest)) = _
    rw [hyScan_out_eq_of_split_some []
      (splitPair_append (c ++ '}' :: '}' :: renderChunks rest) hadj) pend]
    rw [hyScan_ins_eq_of_split_some []
      (splitPair_append (renderChunks rest) hcpair) (pend ++ l) []]
    rw [List.nil_append]
    rw [hyScan_close]
    rw [ih hwfrest hnt
      (fun x hx => hcl x (by simp [chunkSpans, hx]))
      (fun x hx => hnm x (by simp [chunkSpans, hx])) []]
    rw [hclean]
    rw [if_neg (hnm c (by simp [chunkSpans]))]
    show (pend ++ l ++ '%' :: 's' :: ([] ++ hyFmtChunks rest),
      (⟨'{' :: '{' :: c ++ '}' :: '}' :: []⟩ : String) :: hyArgsChunks rest) = _
    rw [List.nil_append, List.append_assoc]
    rfl

/-- Sprintf over the chunk format string and span arguments rebuilds the
rendering. -/
theorem goSprintf_chunks : ∀ ch : Chunks, chunksNoTail ch →
    chunksNoPercent ch →
    goSprintf (hyFmtChunks ch) (hyArgsChunks ch) = renderChunks ch := by
  intro ch
  induction ch with
  | last l =>
    intro _ hnp
    have h2 := goSprintf_lit l hnp [] []
    rw [List.append_nil] at h2
    show goSprintf l [] = l
    rw [h2]
    simp [goSprintf]
  | tail l copt =>
    intro hnt
    exact absurd hnt (by simp [chunksNoTail])
  | more l c rest ih =>
    intro hnt hnp
    show goSprintf (l ++ '%' :: 's' :: hyFmtChunks rest)
        ((⟨'{' :: '{' :: c ++ '}' :: '}' :: []⟩ : String) :: hyArgsChunks rest) =
      l ++ '{' :: '{' :: (c ++ '}' :: '}' :: renderChunks rest)
    rw [goSprintf_lit l hnp.1 _ _, goSprintf_placeholder, ih hnt hnp.2]
    show l ++ (('{' :: '{' :: c ++ '}' :: '}' :: []) ++ renderChunks rest) = _
    simp [List.append_assoc]

/-- With no values, the safe hydrator fixes any well-formed, percent-free
rendering without an unterminated open whose spans have nonempty names and
do not end in a closing brace. -/
theorem hydrateSafe_fixed {ch : Chunks} (hwf : ChunksWF ch)
    (hnt : chunksNoTail ch) (hnp : chunksNoPercent ch)
    (hcl : ∀ c ∈ chunkSpans ch, c.getLast? ≠ some '}')
    (hnm : ∀ c ∈ chunkSpans ch, parseName c ≠ []) :
    HydrateStringSafe ⟨renderChunks ch⟩ [] = ⟨renderChunks ch⟩ := by
  unfold HydrateStringSafe
  rw [show (⟨renderChunks ch⟩ : String).data = renderChunks ch from rfl]
  rw [hyScan_renderChunks ch hwf hnt hcl hnm []]
  show (⟨goSprintf ([] ++ hyFmtChunks ch) (hyArgsChunks ch)⟩ : String) = _
  rw [List.nil_append, goSprintf_chunks ch hnt hnp]

/-- Counterexample to claim C4 as stated: with empty (or empty-object) JSON
the code still runs the safe hydrator with an empty value list, which
re-renders every span with cleaned content, so the template is not returned
unchanged whenever cleaning moves it. -/
theorem hydrateStringFromJSON_empty_counterexample :
    HydrateStringFromJSON "run \x7b\x7b a \x7d\x7d" "" =
      .ok "run \x7b\x7ba\x7d\x7d" ∧
    HydrateStringFromJSON "run \x7b\x7b a \x7d\x7d" "\x7b\x7d" =
      .ok "run \x7b\x7ba\x7d\x7d" ∧
    ("run \x7b\x7ba\x7d\x7d" : String) ≠ "run \x7b\x7b a \x7d\x7d" :=
  ⟨by decide, by decide, by decide⟩

/-- Claim C4 (amended): for an empty or empty-object JSON payload,
HydrateStringFromJSON returns the safe hydration of the template against an
empty value list, not the template itself; that hydration returns the
template character for character when the template is a well-formed
rendering of literal runs and spans in which literal runs are collapse-fixed
and percent-free, no open is unterminated, and every span content is
clean-fixed with a nonempty name and no closing brace at its end. -/
theorem hydrateStringFromJSON_empty (t : String) :
    (HydrateStringFromJSON t "" = .ok (HydrateStringSafe t []) ∧
      HydrateStringFromJSON t "\x7b\x7d" = .ok (HydrateStringSafe t [])) ∧
    (∀ ch : Chunks, t = ⟨renderChunks ch⟩ → ChunksWF ch → chunksNoTail ch →
      chunksNoPercent ch →
      (∀ c ∈ chunkSpans ch, c.getLast? ≠ some '}') →
      (∀ c ∈ chunkSpans ch, parseName c ≠ []) →
      HydrateStringFromJSON t "" = .ok t ∧
      HydrateStringFromJSON t "\x7b\x7d" = .ok t) := by
  refine ⟨⟨rfl, rfl⟩, ?_⟩
  intro ch ht hwf hnt hnp hcl hnm
  subst ht
  have hfix := hydrateSafe_fixed hwf hnt hnp hcl hnm
  constructor
  · show Except.ok (HydrateStringSafe (⟨renderChunks ch⟩ : String) []) = _
    rw [hfix]
  · show Except.ok (HydrateStringSafe (⟨renderChunks ch⟩ : String) []) = _
    rw [hfix]

/-- Witness for the amended C4 theorem at a concrete normalized template. -/
theorem hydrateStringFromJSON_empty_witness :
    HydrateStringFromJSON "echo \x7b\x7ba|d\x7d\x7d" "" =
      .ok "echo \x7b\x7ba|d\x7d\x7d" :=
  ((hydrateStringFromJSON_empty "echo \x7b\x7ba|d\x7d\x7d").2
    (.more "echo ".data "a|d".data (.last []))
    (by decide)
    ⟨by decide, by decide, by decide, by decide, by decide, by decide⟩
    trivial
    ⟨by decide, by show ('%' : Char) ∉ ([] : List Char); decide⟩
    (by decide)
    (by decide)).1
